import Mathlib

/-!
Shallow embedding of the autosend core of `sftpsender.go` (package main of
github.com/rix4uni/sftpsender): the worker-number parser `parseWorkerNumbers`,
the file-sequence locator `findFileSequence`, the host-template expander
`resolveWorkerName`, and the plan-building / upload loop of `main`.

Strings are modelled at the level of `List Char`; Go's `strings.Split`,
`strings.TrimSpace`, `strings.Contains`, `strings.SplitN(s, sep, 2)`,
`strings.ReplaceAll` and `strconv.Atoi` are re-implemented faithfully below
(`strconv.Atoi`'s 64-bit overflow failure is not modelled: numbers are
unbounded, as flagged implementation-defined in the spec).  The local
filesystem is a predicate `String → Bool` (the set of paths `os.Stat`
succeeds on).  `filepath.Abs`/`Dir`/`Base` applied to the base path are OS
operations; `findFileSequence` here receives the already-split absolute
directory and filename, and `filepath.Join dir name` is modelled as
`dir ++ "/" ++ name` (the cleaned-path common case).  Go's
`map[int]bool` is a set; its randomized iteration order followed by
`sort.Ints` is modelled by a sorting function parameter, with the canonical
instance using insertion sort.
-/

/-- Go `unicode.IsSpace` restricted to the code points relevant here
(Latin-1 range, as in Go's `isSpace` table). -/
def goIsSpace (c : Char) : Bool :=
  c = ' ' || c = '\t' || c = '\n' || c = '\x0b' || c = '\x0c' || c = '\r' ||
    c = '\x85' || c = '\xa0'

/-- Go `strings.TrimSpace`: drop leading and trailing whitespace. -/
def trimSpace (l : List Char) : List Char :=
  ((l.dropWhile goIsSpace).reverse.dropWhile goIsSpace).reverse

/-- Go `strings.Split s (String.singleton sep)` for a one-character
separator: split on every occurrence, keeping empty fields. -/
def splitOnChar (sep : Char) : List Char → List (List Char)
  | [] => [[]]
  | c :: cs =>
    if c = sep then
      [] :: splitOnChar sep cs
    else
      match splitOnChar sep cs with
      | [] => [[c]]
      | p :: ps => (c :: p) :: ps

/-- Decimal digit test, as the Go code's `c >= '0' && c <= '9'`. -/
def isDigitChar (c : Char) : Bool := '0' ≤ c && c ≤ '9'

/-- Value of a decimal digit character. -/
def digitVal (c : Char) : Nat := c.toNat - 48

/-- Value of a string of decimal digits (most significant first). -/
def digitsVal (l : List Char) : Nat :=
  l.foldl (fun acc c => 10 * acc + digitVal c) 0

/-- Parse a nonempty all-digit string as a natural number; `none` otherwise. -/
def parseDigits (l : List Char) : Option Nat :=
  if l ≠ [] ∧ l.all isDigitChar then some (digitsVal l) else none

/-- Go `strconv.Atoi`: optional single leading sign, then a nonempty run of
decimal digits (overflow not modelled). -/
def goAtoi : List Char → Option Int
  | [] => none
  | c :: rest =>
    if c = '+' then (parseDigits rest).map Int.ofNat
    else if c = '-' then (parseDigits rest).map (fun n => -(Int.ofNat n))
    else (parseDigits (c :: rest)).map Int.ofNat

/-- The decimal digit character for `k < 10` (`k ≥ 10` clamps, never used). -/
def digitChar : Nat → Char
  | 0 => '0' | 1 => '1' | 2 => '2' | 3 => '3' | 4 => '4'
  | 5 => '5' | 6 => '6' | 7 => '7' | 8 => '8' | _ => '9'

/-- Fuel-indexed digit rendering; the fuel only bounds the recursion depth
and never runs out when it starts at the number itself. -/
def natDigitsAux : Nat → Nat → List Char
  | 0, n => [digitChar n]
  | fuel + 1, n =>
    if n < 10 then [digitChar n]
    else natDigitsAux fuel (n / 10) ++ [digitChar (n % 10)]

/-- Decimal digits of a natural number, most significant first
(Go `fmt %d` / `strconv.Itoa` on a non-negative value). -/
def natDigits (n : Nat) : List Char := natDigitsAux n n

/-- Decimal rendering of a natural number. -/
def natToString (n : Nat) : String := (natDigits n).asString

/-- Go `fmt %d` on an `int`: decimal, `-` sign for negative values,
no padding. -/
def intToString (n : Int) : String :=
  if n < 0 then "-" ++ natToString (-n).toNat else natToString n.toNat

/-- `filepath.Join dir name` in the cleaned-path common case. -/
def joinPath (dir name : String) : String := dir ++ "/" ++ name

/-- `filepath.Base`: the final path component (common case: everything
after the last slash). -/
def pathBase (p : String) : String :=
  ((p.toList.reverse.takeWhile (fun c => c ≠ '/')).reverse).asString

/-- Go `strings.SplitN s ":" 2`: the part before the first colon, and the
rest (which may itself contain colons) when a colon is present. -/
def splitFirstColon (s : String) : String × Option String :=
  match s.toList.dropWhile (fun c => c ≠ ':') with
  | [] => ((s.toList.takeWhile (fun c => c ≠ ':')).asString, none)
  | _ :: tail => ((s.toList.takeWhile (fun c => c ≠ ':')).asString, some tail.asString)

/-! ### `parseWorkerNumbers` (sftpsender.go lines 415–497) -/

/-- The ignore-list pass of `parseWorkerNumbers`: split on `,`, trim, drop
empty tokens, `Atoi` each remaining token (error `invalid ignore number`),
collect the values (Go stores them as keys of a `map[int]bool`; only
membership is ever used, so a list with possible duplicates is faithful). -/
def parseIgnoreTokens : List (List Char) → Except String (List Int)
  | [] => .ok []
  | t :: ts =>
    if trimSpace t = [] then parseIgnoreTokens ts
    else
      match goAtoi (trimSpace t) with
      | none => .error ("invalid ignore number: " ++ (trimSpace t).asString)
      | some n =>
        match parseIgnoreTokens ts with
        | .error e => .error e
        | .ok ns => .ok (n :: ns)

/-- `if ignore != "" { ... }` wrapper around the ignore-token loop. -/
def parseIgnoreList (ignore : List Char) : Except String (List Int) :=
  if ignore = [] then .ok [] else parseIgnoreTokens (splitOnChar ',' ignore)

/-- Insertion of a key into the `map[int]bool`-as-set accumulator: a map
write is idempotent on an existing key. -/
def insertIfAbsent (x : Int) (l : List Int) : List Int :=
  if x ∈ l then l else l ++ [x]

/-- The integers `s, s+1, …, e` in increasing order (`for i := start;
i <= end; i++`). -/
def intRange (s e : Int) : List Int :=
  (List.range (e + 1 - s).toNat).map (fun k => s + Int.ofNat k)

/-- The range branch's inner loop: insert every `i ∈ [start, end]` not in
the ignore set. -/
def addRange (ignore : List Int) (acc : List Int) (s e : Int) : List Int :=
  (intRange s e).foldl
    (fun acc i => if i ∈ ignore then acc else insertIfAbsent i acc) acc

/-- One iteration of the autosend-token loop: trim; skip empty; a token
containing `-` must split into exactly two `Atoi`-parsable parts with
`start <= end`, contributing the un-ignored integers of the range; any
other token must `Atoi`-parse and is inserted when not ignored. -/
def processToken (ignore : List Int) (acc : List Int) (tok : List Char) :
    Except String (List Int) :=
  if trimSpace tok = [] then .ok acc
  else if '-' ∈ trimSpace tok then
    match splitOnChar '-' (trimSpace tok) with
    | [p1, p2] =>
      match goAtoi (trimSpace p1) with
      | none => .error ("invalid range start: " ++ p1.asString)
      | some s =>
        match goAtoi (trimSpace p2) with
        | none => .error ("invalid range end: " ++ p2.asString)
        | some e =>
          if s > e then
            .error ("range start (" ++ intToString s ++ ") must be <= end (" ++
              intToString e ++ ")")
          else .ok (addRange ignore acc s e)
    | _ =>
      .error ("invalid range format: " ++ (trimSpace tok).asString ++
        " (expected format: start-end)")
  else
    match goAtoi (trimSpace tok) with
    | none => .error ("invalid worker number: " ++ (trimSpace tok).asString)
    | some n => .ok (if n ∈ ignore then acc else insertIfAbsent n acc)

/-- The autosend-token loop folded over all comma-separated tokens. -/
def buildWorkerSet (ignore : List Int) :
    List (List Char) → List Int → Except String (List Int)
  | [], acc => .ok acc
  | t :: ts, acc =>
    match processToken ignore acc t with
    | .error e => .error e
    | .ok acc' => buildWorkerSet ignore ts acc'

/-- `parseWorkerNumbers`, parameterized by the function that turns the
accumulated key set into the final slice (Go: `for num := range workerSet`
in randomized map order, then `sort.Ints`).  Errors are those of the Go
code; on success the sorted list of distinct un-ignored worker numbers. -/
def parseWorkerNumbersWith (sortFn : List Int → List Int)
    (autosend ignore : String) : Except String (List Int) :=
  if autosend.toList = [] then .error "autosend cannot be empty"
  else
    match parseIgnoreList ignore.toList with
    | .error e => .error e
    | .ok ignoreList =>
      match buildWorkerSet ignoreList (splitOnChar ',' autosend.toList) [] with
      | .error e => .error e
      | .ok acc =>
        if (sortFn acc).length = 0 then
          .error "no workers to send to after applying ignore list"
        else .ok (sortFn acc)

/-- `parseWorkerNumbers` with the canonical sort (any map iteration order
followed by `sort.Ints` yields this; see the determinism theorem). -/
def parseWorkerNumbers (autosend ignore : String) : Except String (List Int) :=
  parseWorkerNumbersWith (List.insertionSort (· ≤ ·)) autosend ignore

/-! ### `findFileSequence` (sftpsender.go lines 500–567) -/

/-- The digit-scan loop of `findFileSequence`: walk the filename left to
right; at the first digit, take the maximal digit run, yielding
(characters before the run, the run, characters after the run).  `none`
when the filename has no digit.  (Go's `strconv.Atoi` on the run can only
fail by overflow, which is not modelled, so the `break` always fires at
the first digit.) -/
def firstDigitRunAux : List Char → List Char → Option (List Char × List Char × List Char)
  | _, [] => none
  | seen, c :: rest =>
    if isDigitChar c then
      some (seen.reverse, (c :: rest).takeWhile isDigitChar,
        (c :: rest).dropWhile isDigitChar)
    else firstDigitRunAux (c :: seen) rest

/-- Entry point of the digit scan on a filename. -/
def firstDigitRun (l : List Char) : Option (List Char × List Char × List Char) :=
  firstDigitRunAux [] l

/-- Candidate filename number `i` of the sequence:
`fmt.Sprintf("%s%d%s", prefix, baseNum+i, suffix)`. -/
def candidateName (pre : List Char) (baseNum : Nat) (suf : List Char) (i : Nat) : String :=
  pre.asString ++ natToString (baseNum + i) ++ suf.asString

/-- The sequence-generation loop: for each index, stat the candidate path;
on the first missing one fail with `file does not exist in sequence`,
otherwise append the path. -/
def seqLoop (fs : String → Bool) (dir : String) (pre : List Char) (baseNum : Nat)
    (suf : List Char) : Nat → Nat → List String → Except String (List String)
  | _, 0, acc => .ok acc
  | i, n + 1, acc =>
    if fs (joinPath dir (candidateName pre baseNum suf i)) then
      seqLoop fs dir pre baseNum suf (i + 1) n
        (acc ++ [joinPath dir (candidateName pre baseNum suf i)])
    else
      .error ("file does not exist in sequence: " ++
        joinPath dir (candidateName pre baseNum suf i))

/-- `findFileSequence basePath count` over a filesystem `fs` (the set of
paths `os.Stat` succeeds on), with the absolute base path already split
as `dir`/`baseName` (`filepath.Abs`, `Dir`, `Base` are OS calls).  Checks
`count > 0`, that the base file exists, extracts the first digit run from
the filename, and collects the `count` candidate paths, failing on the
first missing one. -/
def findFileSequence (fs : String → Bool) (dir baseName : String) (count : Int) :
    Except String (List String) :=
  if count ≤ 0 then .error "count must be positive"
  else if fs (joinPath dir baseName) = false then
    .error ("base file does not exist: " ++ joinPath dir baseName)
  else
    match firstDigitRun baseName.toList with
    | none => .error ("could not extract number from filename: " ++ baseName)
    | some (pre, digits, suf) =>
      seqLoop fs dir pre (digitsVal digits) suf 0 count.toNat []

/-! ### `resolveWorkerName` (lines 570–574) and the autosend plan and
upload loop of `main` (lines 626–697) -/

/-- Character-level `strings.ReplaceAll l "*" r` (the pattern is the single
character `*`, so non-overlapping occurrences are single characters). -/
def replaceStar (r : List Char) : List Char → List Char
  | [] => []
  | c :: cs => (if c = '*' then r else [c]) ++ replaceStar r cs

/-- `resolveWorkerName`: replace every `*` in the IP template with
`worker{num}` (`fmt.Sprintf("worker%d", workerNum)`). -/
def resolveWorkerName (workerNum : Int) (ipTemplate : String) : String :=
  (replaceStar ("worker" ++ intToString workerNum).toList ipTemplate.toList).asString

/-- One row of the distribution plan as materialized by the upload loop:
worker number, resolved host (IP or VPS name), remote location, local
file path, and display path. -/
structure PlanItem where
  workerNum : Int
  host : String
  location : String
  file : String
  display : String
deriving DecidableEq, Repr

/-- The per-worker head of the upload loop: expand the template part of
`--ip` for this worker, split the expansion on its first colon, and fall
back to the location from the original `--ip` split when the expansion
has no colon.  `location` is the `--ip` location with Go's zero value
`""` for "absent". -/
def planItemFor (ipTemplate location origDir : String) (w : Int) (file : String) :
    PlanItem :=
  { workerNum := w
    host := (splitFirstColon (resolveWorkerName w ipTemplate)).1
    location :=
      match (splitFirstColon (resolveWorkerName w ipTemplate)).2 with
      | some l => l
      | none => location
    file := file
    display := joinPath origDir (pathBase file) }

/-- The plan materialized by `for i, workerNum := range workers`, pairing
`workers[i]` with `files[i]`. -/
def buildPlan (ip origDir : String) (workers : List Int) (files : List String) :
    List PlanItem :=
  (workers.zip files).map (fun p =>
    planItemFor (splitFirstColon ip).1
      (match (splitFirstColon ip).2 with | some l => l | none => "") origDir p.1 p.2)

/-- The message displayed for the "File count does not match worker count"
fatal branch of `main`. -/
def mismatchMsg : String := "File count does not match worker count"

/-- The autosend pipeline of `main` up to the upload loop: parse workers,
locate the file sequence with `count = len(workers)`, check the
cardinality, and build the plan. -/
def autosendPlan (fs : String → Bool) (dir baseName ip origDir : String)
    (autosend ignore : String) : Except String (List PlanItem) :=
  match parseWorkerNumbers autosend ignore with
  | .error e => .error e
  | .ok workers =>
    match findFileSequence fs dir baseName (workers.length : Int) with
    | .error e => .error e
    | .ok files =>
      if files.length ≠ workers.length then .error mismatchMsg
      else .ok (buildPlan ip origDir workers files)

/-- The failure message recorded for a plan item
(`"Failed to upload to worker%d (%s): %v"`). -/
def uploadErrMsg (it : PlanItem) (err : String) : String :=
  "Failed to upload to worker" ++ intToString it.workerNum ++ " (" ++
    it.host ++ "): " ++ err

/-- The upload loop of `main`: call the transfer collaborator on every
item in plan order; count successes, append a failure message per failed
item, and record every item attempted.  Returns
(successCount, errors, attempted). -/
def executePlan (transfer : PlanItem → Except String Unit) :
    List PlanItem → Nat → List String → List PlanItem →
      Nat × List String × List PlanItem
  | [], s, errs, att => (s, errs, att)
  | it :: rest, s, errs, att =>
    match transfer it with
    | .ok _ => executePlan transfer rest (s + 1) errs (att ++ [it])
    | .error e => executePlan transfer rest s (errs ++ [uploadErrMsg it e]) (att ++ [it])

/-- Run the upload loop from the initial state. -/
def runPlan (transfer : PlanItem → Except String Unit) (plan : List PlanItem) :
    Nat × List String × List PlanItem :=
  executePlan transfer plan 0 [] []

/-- `main`'s exit behavior after the summary: `log.Fatal` (non-zero exit)
exactly when the error list is nonempty. -/
def runFatal (transfer : PlanItem → Except String Unit) (plan : List PlanItem) : Bool :=
  (runPlan transfer plan).2.1.length > 0

/-- Whether the transfer collaborator succeeds on a plan item. -/
def transferOk (transfer : PlanItem → Except String Unit) (it : PlanItem) : Bool :=
  match transfer it with
  | .ok _ => true
  | .error _ => false

/-- The error message produced by the transfer collaborator on a plan item
(empty on success; only used on failing items). -/
def transferErr (transfer : PlanItem → Except String Unit) (it : PlanItem) : String :=
  match transfer it with
  | .error e => e
  | .ok _ => ""

/-- The (host identifier, location override) pair the upload loop uses for
worker `n` under `--ip` string `ipStr`: `main` splits the `--ip` string on
its first colon before the loop, expands only the part before the colon,
splits the expansion again, and falls back to the outer location. -/
def workerHostLoc (n : Int) (ipStr : String) : String × Option String :=
  ((splitFirstColon (resolveWorkerName n (splitFirstColon ipStr).1)).1,
    match (splitFirstColon (resolveWorkerName n (splitFirstColon ipStr).1)).2 with
    | some l => some l
    | none => (splitFirstColon ipStr).2)

/-- The pair described by the spec's stated order: first expand the
wildcard in the whole template, then split the expanded string on its
first colon. -/
def specHostLoc (n : Int) (ipStr : String) : String × Option String :=
  splitFirstColon (resolveWorkerName n ipStr)

/-! ### Concrete filesystems for the examples -/

/-- `/data` holding `worker162.txt` … `worker166.txt` (the spec's end-to-end
fixture). -/
def fs162 : String → Bool := fun p => p ∈ ["/data/worker162.txt",
  "/data/worker163.txt", "/data/worker164.txt", "/data/worker165.txt",
  "/data/worker166.txt"]

/-- `fs162` with `worker164.txt` absent. -/
def fsGap : String → Bool := fun p => p ≠ "/data/worker164.txt" && fs162 p

/-- `/d` holding `worker007.txt` and the unpadded `worker7.txt`,
`worker8.txt` (leading-zero fixture). -/
def fsPad : String → Bool := fun p => p ∈ ["/d/worker007.txt",
  "/d/worker7.txt", "/d/worker8.txt"]

/-- `/d` holding a single file whose name has no digits. -/
def fsNoDig : String → Bool := fun p => p = "/d/nodigits.txt"


/-! ### Lemmas about the string helpers -/

theorem splitOnChar_ne_nil {sep : Char} : ∀ {l : List Char}, splitOnChar sep l ≠ [] := by
  intro l
  cases l with
  | nil => simp [splitOnChar]
  | cons c cs =>
    unfold splitOnChar
    by_cases hc : c = sep
    · rw [if_pos hc]; simp
    · rw [if_neg hc]
      rcases hsp : splitOnChar sep cs with _ | ⟨q, qs⟩ <;> simp

theorem splitOnChar_cons_of_ne {sep c : Char} {cs : List Char} (hc : ¬ c = sep)
    {q : List Char} {qs : List (List Char)} (hsp : splitOnChar sep cs = q :: qs) :
    splitOnChar sep (c :: cs) = (c :: q) :: qs := by
  unfold splitOnChar
  rw [if_neg hc, hsp]

theorem splitOnChar_not_mem {sep : Char} : ∀ {l : List Char} {p : List Char},
    p ∈ splitOnChar sep l → sep ∉ p := by
  intro l
  induction l with
  | nil =>
    intro p hp
    simp only [splitOnChar, List.mem_singleton] at hp
    subst hp; simp
  | cons c cs ih =>
    intro p hp
    by_cases hc : c = sep
    · subst hc
      unfold splitOnChar at hp
      rw [if_pos rfl] at hp
      rcases List.mem_cons.mp hp with h | h
      · subst h; simp
      · exact ih h
    · rcases hsp : splitOnChar sep cs with _ | ⟨q, qs⟩
      · exact absurd hsp splitOnChar_ne_nil
      · rw [splitOnChar_cons_of_ne hc hsp] at hp
        rcases List.mem_cons.mp hp with h | h
        · subst h
          intro hmem
          rcases List.mem_cons.mp hmem with h | h
          · exact hc h.symm
          · exact ih (hsp ▸ List.mem_cons_self q qs) h
        · exact ih (hsp ▸ List.mem_cons_of_mem q h)

theorem splitOnChar_of_not_mem {sep : Char} : ∀ {l : List Char},
    sep ∉ l → splitOnChar sep l = [l] := by
  intro l
  induction l with
  | nil => intro _; rfl
  | cons c cs ih =>
    intro h
    have hc : ¬ c = sep := fun he => h (he ▸ List.mem_cons_self c cs)
    have hcs : sep ∉ cs := fun hm => h (List.mem_cons_of_mem c hm)
    exact splitOnChar_cons_of_ne hc (ih hcs)

theorem splitOnChar_append {sep : Char} : ∀ {a : List Char} (b : List Char),
    sep ∉ a → splitOnChar sep (a ++ sep :: b) = a :: splitOnChar sep b := by
  intro a
  induction a with
  | nil =>
    intro b _
    show splitOnChar sep (sep :: b) = [] :: splitOnChar sep b
    simp [splitOnChar]
  | cons c cs ih =>
    intro b h
    have hc : ¬ c = sep := fun he => h (he ▸ List.mem_cons_self c cs)
    have hcs : sep ∉ cs := fun hm => h (List.mem_cons_of_mem c hm)
    rw [List.cons_append]
    exact splitOnChar_cons_of_ne hc (ih b hcs)

theorem dropWhile_eq_self_of_none {p : Char → Bool} {l : List Char}
    (h : ∀ c ∈ l, ¬ p c) : l.dropWhile p = l := by
  cases l with
  | nil => rfl
  | cons a t => rw [List.dropWhile_cons_of_neg (by simpa using h a (by simp))]

theorem trimSpace_eq_self {l : List Char} (h : ∀ c ∈ l, ¬ goIsSpace c) :
    trimSpace l = l := by
  unfold trimSpace
  rw [dropWhile_eq_self_of_none h,
    dropWhile_eq_self_of_none (fun c hc => h c (List.mem_reverse.mp hc)),
    List.reverse_reverse]

theorem trimSpace_subset {l : List Char} : ∀ c ∈ trimSpace l, c ∈ l := by
  intro c hc
  unfold trimSpace at hc
  rw [List.mem_reverse] at hc
  have h1 := (List.dropWhile_sublist (l := (l.dropWhile goIsSpace).reverse)
    (p := goIsSpace)).subset hc
  rw [List.mem_reverse] at h1
  exact (List.dropWhile_sublist (l := l) (p := goIsSpace)).subset h1

theorem isDigitChar_digitChar {k : Nat} (h : k < 10) :
    isDigitChar (digitChar k) = true := by
  interval_cases k <;> decide

theorem digitVal_digitChar {k : Nat} (h : k < 10) : digitVal (digitChar k) = k := by
  interval_cases k <;> decide

theorem natDigitsAux_fuel_irrel : ∀ {fuel fuel' n : Nat}, n ≤ fuel → n ≤ fuel' →
    natDigitsAux fuel n = natDigitsAux fuel' n := by
  intro fuel
  induction fuel with
  | zero =>
    intro fuel' n h1 _
    have hn : n = 0 := by omega
    subst hn
    cases fuel' with
    | zero => rfl
    | succ m =>
      show [digitChar 0] = if 0 < 10 then [digitChar 0] else _
      rw [if_pos (by omega)]
  | succ f ih =>
    intro fuel' n h1 h2
    cases fuel' with
    | zero =>
      have hn : n = 0 := by omega
      subst hn
      show (if 0 < 10 then [digitChar 0] else _) = [digitChar 0]
      rw [if_pos (by omega)]
    | succ f' =>
      show (if n < 10 then [digitChar n] else natDigitsAux f (n / 10) ++ _) =
        (if n < 10 then [digitChar n] else natDigitsAux f' (n / 10) ++ _)
      by_cases hn : n < 10
      · rw [if_pos hn, if_pos hn]
      · rw [if_neg hn, if_neg hn,
          ih (by omega) (show n / 10 ≤ f' by omega)]

theorem natDigits_eq (n : Nat) : natDigits n =
    if n < 10 then [digitChar n]
    else natDigits (n / 10) ++ [digitChar (n % 10)] := by
  unfold natDigits
  cases n with
  | zero => rfl
  | succ m =>
    show (if m + 1 < 10 then _ else natDigitsAux m ((m + 1) / 10) ++ _) = _
    by_cases hn : m + 1 < 10
    · rw [if_pos hn, if_pos hn]
    · rw [if_neg hn, if_neg hn,
        natDigitsAux_fuel_irrel (by omega) (le_refl ((m + 1) / 10))]

theorem natDigits_ne_nil {n : Nat} : natDigits n ≠ [] := by
  rw [natDigits_eq]
  split
  · simp
  · simp

theorem natDigits_all_digit : ∀ {n : Nat}, ∀ c ∈ natDigits n, isDigitChar c = true := by
  intro n
  induction n using Nat.strong_induction_on with
  | _ n ih =>
    intro c hc
    rw [natDigits_eq] at hc
    split at hc
    · have h := List.mem_singleton.mp hc
      subst h
      exact isDigitChar_digitChar (by omega)
    · rcases List.mem_append.mp hc with h | h
      · exact ih (n / 10) (Nat.div_lt_self (by omega) (by omega)) c h
      · have h := List.mem_singleton.mp h
        subst h
        exact isDigitChar_digitChar (Nat.mod_lt n (by omega))

theorem digitsVal_append {l : List Char} {c : Char} :
    digitsVal (l ++ [c]) = 10 * digitsVal l + digitVal c := by
  unfold digitsVal
  rw [List.foldl_append]
  rfl

theorem digitsVal_natDigits : ∀ {n : Nat}, digitsVal (natDigits n) = n := by
  intro n
  induction n using Nat.strong_induction_on with
  | _ n ih =>
    rw [natDigits_eq]
    split
    · rename_i h
      show digitsVal [digitChar n] = n
      unfold digitsVal
      simp [digitVal_digitChar h]
    · rename_i h
      rw [digitsVal_append, ih (n / 10) (Nat.div_lt_self (by omega) (by omega)),
        digitVal_digitChar (Nat.mod_lt n (by omega))]
      omega

theorem parseDigits_natDigits {n : Nat} : parseDigits (natDigits n) = some n := by
  unfold parseDigits
  rw [if_pos]
  · rw [digitsVal_natDigits]
  · exact ⟨natDigits_ne_nil, List.all_eq_true.mpr (fun c hc => natDigits_all_digit c hc)⟩

theorem digit_not_special {c : Char} (h : isDigitChar c = true) :
    c ≠ '+' ∧ c ≠ '-' ∧ c ≠ ',' ∧ c ≠ ':' ∧ c ≠ '*' ∧ c ≠ '/' ∧ ¬ goIsSpace c := by
  refine ⟨?_, ?_, ?_, ?_, ?_, ?_, ?_⟩
  · intro he; subst he; exact absurd h (by decide)
  · intro he; subst he; exact absurd h (by decide)
  · intro he; subst he; exact absurd h (by decide)
  · intro he; subst he; exact absurd h (by decide)
  · intro he; subst he; exact absurd h (by decide)
  · intro he; subst he; exact absurd h (by decide)
  · intro hsp
    unfold goIsSpace at hsp
    simp only [Bool.or_eq_true, decide_eq_true_eq] at hsp
    rcases hsp with ((((((h' | h') | h') | h') | h') | h') | h') | h' <;>
      subst h' <;> exact absurd h (by decide)

theorem goAtoi_natDigits {n : Nat} : goAtoi (natDigits n) = some (n : Int) := by
  rcases hd : natDigits n with _ | ⟨c, cs⟩
  · exact absurd hd natDigits_ne_nil
  · have hc : isDigitChar c = true :=
      natDigits_all_digit c (hd ▸ List.mem_cons_self c cs)
    have hns := digit_not_special hc
    simp only [goAtoi]
    rw [if_neg hns.1, if_neg hns.2.1]
    have hp : parseDigits (c :: cs) = some n := hd ▸ parseDigits_natDigits
    rw [hp]
    rfl

theorem goAtoi_nonneg {l : List Char} {v : Int} (h : goAtoi l = some v)
    (hm : '-' ∉ l) : 0 ≤ v := by
  cases l with
  | nil => simp [goAtoi] at h
  | cons c cs =>
    simp only [goAtoi] at h
    by_cases hp : c = '+'
    · rw [if_pos hp] at h
      rcases Option.map_eq_some'.mp h with ⟨m, _, hv⟩
      simp only [Int.ofNat_eq_coe] at hv
      omega
    · rw [if_neg hp] at h
      have hmn : ¬ c = '-' := fun he => hm (he ▸ List.mem_cons_self c cs)
      rw [if_neg hmn] at h
      rcases Option.map_eq_some'.mp h with ⟨m, _, hv⟩
      simp only [Int.ofNat_eq_coe] at hv
      omega

/-! ### Lemmas about the worker-set accumulator -/

theorem mem_intRange {s e y : Int} : y ∈ intRange s e ↔ s ≤ y ∧ y ≤ e := by
  unfold intRange
  simp only [List.mem_map, List.mem_range, Int.ofNat_eq_coe]
  constructor
  · rintro ⟨k, hk, rfl⟩
    omega
  · rintro ⟨h1, h2⟩
    exact ⟨(y - s).toNat, by omega, by omega⟩

theorem intRange_pairwise_lt {s e : Int} : List.Pairwise (· < ·) (intRange s e) :=
  List.Pairwise.map _ (fun a b h => by simp only [Int.ofNat_eq_coe]; omega)
    (List.pairwise_lt_range _)

theorem intRange_sorted_le {s e : Int} : List.Sorted (· ≤ ·) (intRange s e) :=
  List.Pairwise.imp (fun h => le_of_lt h) intRange_pairwise_lt

theorem intRange_nodup {s e : Int} : (intRange s e).Nodup :=
  List.Pairwise.imp (fun h => ne_of_lt h) intRange_pairwise_lt

theorem mem_insertIfAbsent {x y : Int} {l : List Int} :
    y ∈ insertIfAbsent x l ↔ y ∈ l ∨ y = x := by
  unfold insertIfAbsent
  by_cases hx : x ∈ l
  · rw [if_pos hx]
    constructor
    · exact fun h => Or.inl h
    · rintro (h | rfl)
      · exact h
      · exact hx
  · rw [if_neg hx]
    simp

theorem nodup_insertIfAbsent {x : Int} {l : List Int} (h : l.Nodup) :
    (insertIfAbsent x l).Nodup := by
  unfold insertIfAbsent
  by_cases hx : x ∈ l
  · rw [if_pos hx]; exact h
  · rw [if_neg hx]
    exact h.append (List.nodup_singleton x)
      (fun a ha hb => hx ((List.mem_singleton.mp hb) ▸ ha))

theorem foldlIns_mem {ign : List Int} : ∀ {L acc : List Int} {y : Int},
    (y ∈ L.foldl (fun acc i => if i ∈ ign then acc else insertIfAbsent i acc) acc ↔
      y ∈ acc ∨ (y ∈ L ∧ y ∉ ign)) := by
  intro L
  induction L with
  | nil => simp
  | cons x L ih =>
    intro acc y
    rw [List.foldl_cons, ih]
    by_cases hx : x ∈ ign
    · rw [if_pos hx]
      constructor
      · rintro (h | h)
        · exact Or.inl h
        · exact Or.inr ⟨List.mem_cons_of_mem x h.1, h.2⟩
      · rintro (h | ⟨hm, hi⟩)
        · exact Or.inl h
        · rcases List.mem_cons.mp hm with rfl | hm
          · exact absurd hx hi
          · exact Or.inr ⟨hm, hi⟩
    · rw [if_neg hx]
      rw [mem_insertIfAbsent]
      constructor
      · rintro ((h | rfl) | h)
        · exact Or.inl h
        · exact Or.inr ⟨List.mem_cons_self _ _, hx⟩
        · exact Or.inr ⟨List.mem_cons_of_mem x h.1, h.2⟩
      · rintro (h | ⟨hm, hi⟩)
        · exact Or.inl (Or.inl h)
        · rcases List.mem_cons.mp hm with rfl | hm
          · exact Or.inl (Or.inr rfl)
          · exact Or.inr ⟨hm, hi⟩

theorem foldlIns_nodup {ign : List Int} : ∀ {L acc : List Int}, acc.Nodup →
    (L.foldl (fun acc i => if i ∈ ign then acc else insertIfAbsent i acc) acc).Nodup := by
  intro L
  induction L with
  | nil => exact fun h => h
  | cons x L ih =>
    intro acc hacc
    rw [List.foldl_cons]
    apply ih
    by_cases hx : x ∈ ign
    · rw [if_pos hx]; exact hacc
    · rw [if_neg hx]; exact nodup_insertIfAbsent hacc

theorem foldlIns_fresh {ign : List Int} : ∀ {L acc : List Int}, L.Nodup →
    (∀ x ∈ L, x ∉ acc) →
    L.foldl (fun acc i => if i ∈ ign then acc else insertIfAbsent i acc) acc =
      acc ++ L.filter (fun x => decide (x ∉ ign)) := by
  intro L
  induction L with
  | nil => intro acc _ _; simp
  | cons x L ih =>
    intro acc hnd hfresh
    rw [List.foldl_cons]
    have hndL : L.Nodup := hnd.of_cons
    have hxL : x ∉ L := (List.nodup_cons.mp hnd).1
    by_cases hx : x ∈ ign
    · rw [if_pos hx]
      rw [ih hndL (fun z hz => hfresh z (List.mem_cons_of_mem x hz))]
      rw [List.filter_cons]
      simp [hx]
    · rw [if_neg hx]
      have hxa : x ∉ acc := hfresh x (List.mem_cons_self x L)
      have : insertIfAbsent x acc = acc ++ [x] := by
        unfold insertIfAbsent; rw [if_neg hxa]
      rw [this]
      rw [ih hndL (fun z hz => by
        intro hmem
        rcases List.mem_append.mp hmem with hmem | hmem
        · exact hfresh z (List.mem_cons_of_mem x hz) hmem
        · exact hxL ((List.mem_singleton.mp hmem) ▸ hz))]
      rw [List.filter_cons]
      simp [hx]

theorem addRange_mem {ign acc : List Int} {s e y : Int} :
    y ∈ addRange ign acc s e ↔ y ∈ acc ∨ (s ≤ y ∧ y ≤ e ∧ y ∉ ign) := by
  unfold addRange
  rw [foldlIns_mem, mem_intRange]
  tauto

theorem addRange_nodup {ign acc : List Int} {s e : Int} (h : acc.Nodup) :
    (addRange ign acc s e).Nodup :=
  foldlIns_nodup h

theorem addRange_nil {ign : List Int} {s e : Int} :
    addRange ign [] s e = (intRange s e).filter (fun x => decide (x ∉ ign)) := by
  unfold addRange
  rw [foldlIns_fresh intRange_nodup (by simp)]
  rfl

/-- Characterization of the successful outcomes of one autosend-token
iteration: the accumulator is unchanged (empty token, or ignored single
number), extended by one non-negative number, or extended by a
well-ordered range with non-negative start. -/
theorem processToken_ok_cases {ign acc : List Int} {tok : List Char} {acc₂ : List Int}
    (h : processToken ign acc tok = .ok acc₂) :
    acc₂ = acc ∨
    (∃ n : Int, 0 ≤ n ∧ acc₂ = insertIfAbsent n acc) ∨
    (∃ s e : Int, 0 ≤ s ∧ s ≤ e ∧ acc₂ = addRange ign acc s e) := by
  unfold processToken at h
  split at h
  · injection h with h
    exact Or.inl h.symm
  · split at h
    · split at h
      · split at h
        · exact absurd h (by simp)
        · split at h
          · exact absurd h (by simp)
          · split at h
            · exact absurd h (by simp)
            · injection h with h
              rename_i htne hdash xa p1 p2 hsp xb s ha1 xc e ha2 hse
              have hdm : '-' ∉ trimSpace p1 := fun hm =>
                splitOnChar_not_mem (hsp ▸ List.mem_cons_self p1 [p2])
                  (trimSpace_subset _ hm)
              exact Or.inr (Or.inr ⟨s, e, goAtoi_nonneg ha1 hdm, by omega, h.symm⟩)
      · exact absurd h (by simp)
    · split at h
      · exact absurd h (by simp)
      · injection h with h
        rename_i htne hnodash xa n ha
        by_cases hmem : n ∈ ign
        · rw [if_pos hmem] at h
          exact Or.inl h.symm
        · rw [if_neg hmem] at h
          exact Or.inr (Or.inl ⟨n, goAtoi_nonneg ha hnodash, h.symm⟩)

theorem processToken_nodup {ign acc : List Int} {tok : List Char} {acc₂ : List Int}
    (h : processToken ign acc tok = .ok acc₂) (hacc : acc.Nodup) : acc₂.Nodup := by
  rcases processToken_ok_cases h with rfl | ⟨n, _, rfl⟩ | ⟨s, e, _, _, rfl⟩
  · exact hacc
  · exact nodup_insertIfAbsent hacc
  · exact addRange_nodup hacc

theorem processToken_nonneg {ign acc : List Int} {tok : List Char} {acc₂ : List Int}
    (h : processToken ign acc tok = .ok acc₂) (hacc : ∀ y ∈ acc, 0 ≤ y) :
    ∀ y ∈ acc₂, 0 ≤ y := by
  rcases processToken_ok_cases h with rfl | ⟨n, hn, rfl⟩ | ⟨s, e, hs, _, rfl⟩
  · exact hacc
  · intro y hy
    rcases mem_insertIfAbsent.mp hy with hy | rfl
    · exact hacc y hy
    · exact hn
  · intro y hy
    rcases addRange_mem.mp hy with hy | ⟨h1, _, _⟩
    · exact hacc y hy
    · omega

theorem buildWorkerSet_nodup {ign : List Int} : ∀ {ts : List (List Char)}
    {acc acc₂ : List Int}, buildWorkerSet ign ts acc = .ok acc₂ → acc.Nodup →
    acc₂.Nodup := by
  intro ts
  induction ts with
  | nil =>
    intro acc acc₂ h hacc
    injection h with h
    exact h ▸ hacc
  | cons t ts ih =>
    intro acc acc₂ h hacc
    unfold buildWorkerSet at h
    rcases hp : processToken ign acc t with e | acc'
    · rw [hp] at h; exact absurd h (by simp)
    · rw [hp] at h
      exact ih h (processToken_nodup hp hacc)

theorem buildWorkerSet_nonneg {ign : List Int} : ∀ {ts : List (List Char)}
    {acc acc₂ : List Int}, buildWorkerSet ign ts acc = .ok acc₂ →
    (∀ y ∈ acc, 0 ≤ y) → ∀ y ∈ acc₂, 0 ≤ y := by
  intro ts
  induction ts with
  | nil =>
    intro acc acc₂ h hacc
    injection h with h
    exact h ▸ hacc
  | cons t ts ih =>
    intro acc acc₂ h hacc
    unfold buildWorkerSet at h
    rcases hp : processToken ign acc t with e | acc'
    · rw [hp] at h; exact absurd h (by simp)
    · rw [hp] at h
      exact ih h (processToken_nonneg hp hacc)

/-! ### Lemmas about sorting -/

theorem insertionSort_eq_of_sorted {l : List Int} (h : List.Sorted (· ≤ ·) l) :
    l.insertionSort (· ≤ ·) = l :=
  List.eq_of_perm_of_sorted (List.perm_insertionSort _ l)
    (List.sorted_insertionSort _ l) h

theorem sortFn_eq_insertionSort {sortFn : List Int → List Int}
    (hs : ∀ l, List.Perm (sortFn l) l ∧ List.Sorted (· ≤ ·) (sortFn l))
    (l : List Int) : sortFn l = l.insertionSort (· ≤ ·) :=
  List.eq_of_perm_of_sorted ((hs l).1.trans (List.perm_insertionSort _ l).symm)
    (hs l).2 (List.sorted_insertionSort _ l)

theorem sorted_lt_of_sorted_le_nodup {l : List Int} (h : List.Sorted (· ≤ ·) l)
    (hn : l.Nodup) : List.Sorted (· < ·) l :=
  List.Pairwise.imp (fun hab => lt_of_le_of_ne hab.1 hab.2) (h.and hn)

/-- Any map-iteration order followed by a correct sort produces the
canonical result: the parser's output does not depend on the randomized
`range` order of Go's `map[int]bool`. -/
theorem parseWorkerNumbersWith_eq {sortFn : List Int → List Int}
    (hs : ∀ l, List.Perm (sortFn l) l ∧ List.Sorted (· ≤ ·) (sortFn l))
    (autosend ignore : String) :
    parseWorkerNumbersWith sortFn autosend ignore =
      parseWorkerNumbers autosend ignore := by
  unfold parseWorkerNumbers parseWorkerNumbersWith
  split
  · rfl
  · rcases hpi : parseIgnoreList ignore.toList with e | ign
    · simp only [hpi]
    · simp only [hpi]
      rcases hbw : buildWorkerSet ign (splitOnChar ',' autosend.toList) [] with e | acc
      · simp only [hbw]
      · simp only [hbw]
        rw [sortFn_eq_insertionSort hs acc]

/-! ### Lemmas about `seqLoop` and `findFileSequence` -/

theorem seqLoop_ok_of_all {fs : String → Bool} {dir : String} {pre : List Char}
    {baseNum : Nat} {suf : List Char} : ∀ {n i : Nat} {acc : List String},
    (∀ k, i ≤ k → k < i + n →
      fs (joinPath dir (candidateName pre baseNum suf k)) = true) →
    seqLoop fs dir pre baseNum suf i n acc =
      .ok (acc ++ (List.range' i n).map
        (fun k => joinPath dir (candidateName pre baseNum suf k))) := by
  intro n
  induction n with
  | zero => intro i acc _; simp [seqLoop]
  | succ m ih =>
    intro i acc hall
    unfold seqLoop
    rw [if_pos (hall i (le_refl i) (by omega))]
    rw [ih (fun k hk1 hk2 => hall k (by omega) (by omega))]
    rw [List.range'_succ i m 1]
    simp [List.append_assoc]

theorem seqLoop_error_of_first {fs : String → Bool} {dir : String} {pre : List Char}
    {baseNum : Nat} {suf : List Char} : ∀ {n i j : Nat} {acc : List String},
    i ≤ j → j < i + n →
    (∀ k, i ≤ k → k < j →
      fs (joinPath dir (candidateName pre baseNum suf k)) = true) →
    fs (joinPath dir (candidateName pre baseNum suf j)) = false →
    seqLoop fs dir pre baseNum suf i n acc =
      .error ("file does not exist in sequence: " ++
        joinPath dir (candidateName pre baseNum suf j)) := by
  intro n
  induction n with
  | zero => intro i j acc h1 h2 _ _; omega
  | succ m ih =>
    intro i j acc hij hjn hall hmiss
    unfold seqLoop
    by_cases hji : j = i
    · subst hji
      rw [if_neg (by simp [hmiss])]
    · rw [if_pos (hall i (le_refl i) (by omega))]
      exact ih (by omega) (by omega) (fun k hk1 hk2 => hall k (by omega) hk2) hmiss

theorem seqLoop_ok_inv {fs : String → Bool} {dir : String} {pre : List Char}
    {baseNum : Nat} {suf : List Char} : ∀ {n i : Nat} {acc files : List String},
    seqLoop fs dir pre baseNum suf i n acc = .ok files →
    files = acc ++ (List.range' i n).map
        (fun k => joinPath dir (candidateName pre baseNum suf k)) ∧
    ∀ k, i ≤ k → k < i + n →
      fs (joinPath dir (candidateName pre baseNum suf k)) = true := by
  intro n
  induction n with
  | zero =>
    intro i acc files h
    injection h with h
    exact ⟨by simp [h.symm], fun k hk1 hk2 => by omega⟩
  | succ m ih =>
    intro i acc files h
    unfold seqLoop at h
    by_cases hf : fs (joinPath dir (candidateName pre baseNum suf i)) = true
    · rw [if_pos hf] at h
      rcases ih h with ⟨hfiles, hall⟩
      constructor
      · rw [hfiles, List.range'_succ i m 1]
        simp [List.append_assoc]
      · intro k hk1 hk2
        by_cases hki : k = i
        · subst hki; exact hf
        · exact hall k (by omega) (by omega)
    · rw [if_neg hf] at h
      exact absurd h (by simp)

theorem findFileSequence_ok_of_all {fs : String → Bool} {dir baseName : String}
    {count : Int} {pre digits suf : List Char} (h0 : 0 < count)
    (hbase : fs (joinPath dir baseName) = true)
    (hrun : firstDigitRun baseName.toList = some (pre, digits, suf))
    (hall : ∀ k, k < count.toNat →
      fs (joinPath dir (candidateName pre (digitsVal digits) suf k)) = true) :
    findFileSequence fs dir baseName count = .ok ((List.range count.toNat).map
      (fun k => joinPath dir (candidateName pre (digitsVal digits) suf k))) := by
  unfold findFileSequence
  rw [if_neg (by omega), if_neg (by simp [hbase]), hrun]
  show seqLoop fs dir pre (digitsVal digits) suf 0 count.toNat [] = _
  rw [seqLoop_ok_of_all (fun k hk1 hk2 => hall k (by omega))]
  rw [← List.range_eq_range']
  rw [List.nil_append]

theorem findFileSequence_error_of_first {fs : String → Bool} {dir baseName : String}
    {count : Int} {pre digits suf : List Char} {j : Nat} (h0 : 0 < count)
    (hbase : fs (joinPath dir baseName) = true)
    (hrun : firstDigitRun baseName.toList = some (pre, digits, suf))
    (hj : j < count.toNat)
    (hprev : ∀ k, k < j →
      fs (joinPath dir (candidateName pre (digitsVal digits) suf k)) = true)
    (hmiss : fs (joinPath dir (candidateName pre (digitsVal digits) suf j)) = false) :
    findFileSequence fs dir baseName count = .error
      ("file does not exist in sequence: " ++
        joinPath dir (candidateName pre (digitsVal digits) suf j)) := by
  unfold findFileSequence
  rw [if_neg (by omega), if_neg (by simp [hbase]), hrun]
  show seqLoop fs dir pre (digitsVal digits) suf 0 count.toNat [] = _
  exact seqLoop_error_of_first (by omega) (by omega)
    (fun k hk1 hk2 => hprev k hk2) hmiss

theorem findFileSequence_ok_inv {fs : String → Bool} {dir baseName : String}
    {count : Int} {files : List String}
    (h : findFileSequence fs dir baseName count = .ok files) :
    0 < count ∧ fs (joinPath dir baseName) = true ∧
    ∃ pre digits suf, firstDigitRun baseName.toList = some (pre, digits, suf) ∧
      files = (List.range count.toNat).map
        (fun k => joinPath dir (candidateName pre (digitsVal digits) suf k)) ∧
      ∀ k, k < count.toNat →
        fs (joinPath dir (candidateName pre (digitsVal digits) suf k)) = true := by
  unfold findFileSequence at h
  split at h
  · exact absurd h (by simp)
  · split at h
    · exact absurd h (by simp)
    · rename_i hc0 hbf
      split at h
      · exact absurd h (by simp)
      · rename_i xo pre digits suf hrun
        rcases seqLoop_ok_inv h with ⟨hfiles, hall⟩
        refine ⟨by omega, ?_, pre, digits, suf, hrun, ?_, ?_⟩
        · cases hb : fs (joinPath dir baseName) with
          | true => rfl
          | false => exact absurd hb hbf
        · rw [hfiles, ← List.range_eq_range', List.nil_append]
        · exact fun k hk => hall k (by omega) (by omega)

theorem findFileSequence_ok_length {fs : String → Bool} {dir baseName : String}
    {count : Int} {files : List String}
    (h : findFileSequence fs dir baseName count = .ok files) :
    files.length = count.toNat := by
  rcases findFileSequence_ok_inv h with ⟨_, _, pre, digits, suf, _, hfiles, _⟩
  rw [hfiles, List.length_map, List.length_range]

/-! ### Lemmas about the digit scan -/

theorem firstDigitRunAux_none {seen : List Char} : ∀ {l : List Char},
    (∀ c ∈ l, isDigitChar c = false) → firstDigitRunAux seen l = none := by
  intro l
  induction l generalizing seen with
  | nil => intro _; rfl
  | cons c cs ih =>
    intro h
    unfold firstDigitRunAux
    rw [if_neg (by simp [h c (List.mem_cons_self c cs)])]
    exact ih (fun d hd => h d (List.mem_cons_of_mem c hd))

theorem firstDigitRunAux_found {seen : List Char} {c : Char} {rest : List Char}
    (hc : isDigitChar c = true) :
    firstDigitRunAux seen (c :: rest) = some (seen.reverse,
      (c :: rest).takeWhile isDigitChar, (c :: rest).dropWhile isDigitChar) := by
  unfold firstDigitRunAux
  rw [if_pos hc]

theorem firstDigitRun_of_decomp : ∀ {x : List Char} {c : Char} {rest : List Char},
    (∀ d ∈ x, isDigitChar d = false) → isDigitChar c = true →
    firstDigitRun (x ++ c :: rest) = some (x,
      (c :: rest).takeWhile isDigitChar, (c :: rest).dropWhile isDigitChar) := by
  have aux : ∀ (x : List Char) (seen : List Char) (c : Char) (rest : List Char),
      (∀ d ∈ x, isDigitChar d = false) → isDigitChar c = true →
      firstDigitRunAux seen (x ++ c :: rest) = some (seen.reverse ++ x,
        (c :: rest).takeWhile isDigitChar, (c :: rest).dropWhile isDigitChar) := by
    intro x
    induction x with
    | nil =>
      intro seen c rest _ hc
      rw [List.nil_append, firstDigitRunAux_found hc, List.append_nil]
    | cons d ds ih =>
      intro seen c rest hx hc
      rw [List.cons_append]
      unfold firstDigitRunAux
      rw [if_neg (by simp [hx d (List.mem_cons_self d ds)])]
      rw [ih (d :: seen) c rest (fun z hz => hx z (List.mem_cons_of_mem d hz)) hc]
      simp
  intro x c rest hx hc
  have := aux x [] c rest hx hc
  unfold firstDigitRun
  rw [this]
  simp

theorem dropWhile_head_not {p : Char → Bool} : ∀ {l : List Char} {a : Char},
    (l.dropWhile p).head? = some a → p a = false := by
  intro l
  induction l with
  | nil => intro a h; simp at h
  | cons c cs ih =>
    intro a h
    by_cases hc : p c = true
    · rw [List.dropWhile_cons_of_pos hc] at h
      exact ih h
    · rw [List.dropWhile_cons_of_neg hc] at h
      rw [List.head?_cons] at h
      injection h with h
      rw [← h]
      exact Bool.not_eq_true _ ▸ (by simpa using hc)

theorem firstDigitRun_some_inv : ∀ {l pre digits suf : List Char},
    firstDigitRun l = some (pre, digits, suf) →
    l = pre ++ digits ++ suf ∧ (∀ c ∈ pre, isDigitChar c = false) ∧
    digits ≠ [] ∧ (∀ c ∈ digits, isDigitChar c = true) ∧
    (∀ c, suf.head? = some c → isDigitChar c = false) := by
  have aux : ∀ (l : List Char) (seen pre digits suf : List Char),
      firstDigitRunAux seen l = some (pre, digits, suf) →
      ∃ x, pre = seen.reverse ++ x ∧ l = x ++ digits ++ suf ∧
        (∀ c ∈ x, isDigitChar c = false) ∧
        digits ≠ [] ∧ (∀ c ∈ digits, isDigitChar c = true) ∧
        (∀ c, suf.head? = some c → isDigitChar c = false) := by
    intro l
    induction l with
    | nil => intro seen pre digits suf h; exact absurd h (by simp [firstDigitRunAux])
    | cons c cs ih =>
      intro seen pre digits suf h
      by_cases hc : isDigitChar c = true
      · rw [firstDigitRunAux_found hc] at h
        injection h with h
        injection h with h1 h2
        injection h2 with h2 h3
        refine ⟨[], by simp [h1.symm], ?_, by simp, ?_, ?_, ?_⟩
        · rw [List.nil_append, ← h2, ← h3, List.takeWhile_append_dropWhile]
        · rw [← h2]
          rw [List.takeWhile_cons_of_pos hc]
          simp
        · intro z hz
          exact List.mem_takeWhile_imp (h2 ▸ hz)
        · intro z hz
          exact dropWhile_head_not (h3 ▸ hz)
      · unfold firstDigitRunAux at h
        rw [if_neg hc] at h
        rcases ih (c :: seen) pre digits suf h with
          ⟨x, hpre, hl, hx, hne, hdig, hsuf⟩
        refine ⟨c :: x, ?_, by simp [hl], ?_, hne, hdig, hsuf⟩
        · rw [hpre]
          simp
        · intro z hz
          rcases List.mem_cons.mp hz with rfl | hz
          · simpa using hc
          · exact hx z hz
  intro l pre digits suf h
  rcases aux l [] pre digits suf h with ⟨x, hpre, hl, hx, hne, hdig, hsuf⟩
  simp only [List.reverse_nil, List.nil_append] at hpre
  subst hpre
  exact ⟨hl, hx, hne, hdig, hsuf⟩

/-! ### Computation lemmas for range tokens -/

theorem dash_not_mem_natDigits {x : Nat} : '-' ∉ natDigits x :=
  fun hm => (digit_not_special (natDigits_all_digit _ hm)).2.1 rfl

theorem comma_not_mem_natDigits {x : Nat} : ',' ∉ natDigits x :=
  fun hm => (digit_not_special (natDigits_all_digit _ hm)).2.2.1 rfl

theorem natDigits_no_space {x : Nat} : ∀ c ∈ natDigits x, ¬ goIsSpace c :=
  fun c hc => (digit_not_special (natDigits_all_digit c hc)).2.2.2.2.2.2

theorem trimSpace_natDigits {x : Nat} : trimSpace (natDigits x) = natDigits x :=
  trimSpace_eq_self natDigits_no_space

/-- Evaluation of the token loop body on a well-formed range token
`a-b` (digits, dash, digits): the `start <= end` check decides between
the range error and inserting the un-ignored range. -/
theorem processToken_range {ign acc : List Int} {a b : Nat} :
    processToken ign acc (natDigits a ++ '-' :: natDigits b) =
      if Int.ofNat a > Int.ofNat b then
        .error ("range start (" ++ intToString (Int.ofNat a) ++
          ") must be <= end (" ++ intToString (Int.ofNat b) ++ ")")
      else .ok (addRange ign acc (Int.ofNat a) (Int.ofNat b)) := by
  have hts : trimSpace (natDigits a ++ '-' :: natDigits b) =
      natDigits a ++ '-' :: natDigits b := by
    apply trimSpace_eq_self
    intro c hc
    rcases List.mem_append.mp hc with hc | hc
    · exact natDigits_no_space c hc
    · rcases List.mem_cons.mp hc with rfl | hc
      · decide
      · exact natDigits_no_space c hc
  have hne : natDigits a ++ '-' :: natDigits b ≠ [] := by simp
  have hdash : '-' ∈ natDigits a ++ '-' :: natDigits b :=
    List.mem_append.mpr (Or.inr (List.mem_cons_self _ _))
  have hsp : splitOnChar '-' (natDigits a ++ '-' :: natDigits b) =
      [natDigits a, natDigits b] := by
    rw [splitOnChar_append _ dash_not_mem_natDigits,
      splitOnChar_of_not_mem dash_not_mem_natDigits]
  unfold processToken
  rw [hts, if_neg hne, if_pos hdash, hsp]
  split
  · rename_i p1 p2 heq
    injection heq with h1 heq2
    injection heq2 with h2 _
    subst h1
    subst h2
    rw [trimSpace_natDigits, trimSpace_natDigits, goAtoi_natDigits, goAtoi_natDigits]
    rfl
  · rename_i hcontra
    exact (hcontra (natDigits a) (natDigits b) rfl).elim

/-- A successful token-loop iteration on a token containing `-` implies the
token split into exactly two parsable parts in the right order. -/
theorem processToken_dash_ok_inv {ign acc : List Int} {tok : List Char}
    {acc₂ : List Int} (hdash : '-' ∈ trimSpace tok)
    (h : processToken ign acc tok = .ok acc₂) :
    ∃ p1 p2 s e, splitOnChar '-' (trimSpace tok) = [p1, p2] ∧
      goAtoi (trimSpace p1) = some s ∧ goAtoi (trimSpace p2) = some e ∧ s ≤ e := by
  have h0 : ¬ trimSpace tok = [] := by
    intro he
    rw [he] at hdash
    exact List.not_mem_nil _ hdash
  unfold processToken at h
  rw [if_neg h0, if_pos hdash] at h
  split at h
  · split at h
    · exact absurd h (by simp)
    · split at h
      · exact absurd h (by simp)
      · split at h
        · exact absurd h (by simp)
        · rename_i p1 p2 hsp xa s ha1 xb e ha2 hse
          exact ⟨p1, p2, s, e, hsp, ha1, ha2, by omega⟩
  · exact absurd h (by simp)

/-- Evaluation of the parser when the autosend string is a single token
(no commas): the result is the token's contribution, sorted, with the
empty-set check applied. -/
theorem parseWorkerNumbersWith_single_token {sortFn : List Int → List Int}
    {autosend ignore : String} {ignSet : List Int} {tok : List Char}
    (hign : parseIgnoreList ignore.toList = .ok ignSet)
    (htl : autosend.toList = tok) (hne : tok ≠ [])
    (hsplit : splitOnChar ',' tok = [tok]) :
    parseWorkerNumbersWith sortFn autosend ignore =
      match processToken ignSet [] tok with
      | .error e => .error e
      | .ok acc =>
        if (sortFn acc).length = 0 then
          .error "no workers to send to after applying ignore list"
        else .ok (sortFn acc) := by
  unfold parseWorkerNumbersWith
  rw [htl, if_neg hne, hign]
  show (match buildWorkerSet ignSet (splitOnChar ',' tok) [] with
    | Except.error e => Except.error e
    | Except.ok acc =>
      if (sortFn acc).length = 0 then
        Except.error "no workers to send to after applying ignore list"
      else Except.ok (sortFn acc)) = _
  rw [hsplit]
  unfold buildWorkerSet
  rcases hpt : processToken ignSet [] tok with e | acc <;> rfl

/-- Full evaluation of `parseWorkerNumbers` on a well-formed range string
`a-b` (decimal digits around a single dash): order violation error, or
the un-ignored range — which errors when empty and is returned sorted
ascending otherwise. -/
theorem parseWorkerNumbers_range (a b : Nat) (ignore : String) (ignSet : List Int)
    (hign : parseIgnoreList ignore.toList = .ok ignSet) :
    parseWorkerNumbers (natToString a ++ "-" ++ natToString b) ignore =
      if Int.ofNat a > Int.ofNat b then
        .error ("range start (" ++ intToString (Int.ofNat a) ++
          ") must be <= end (" ++ intToString (Int.ofNat b) ++ ")")
      else if (intRange (Int.ofNat a) (Int.ofNat b)).filter
          (fun x => decide (x ∉ ignSet)) = [] then
        .error "no workers to send to after applying ignore list"
      else .ok ((intRange (Int.ofNat a) (Int.ofNat b)).filter
          (fun x => decide (x ∉ ignSet))) := by
  have htl : (natToString a ++ "-" ++ natToString b).toList =
      natDigits a ++ '-' :: natDigits b := by
    have h1 : (natToString a ++ "-" ++ natToString b).toList =
        (natDigits a ++ ['-']) ++ natDigits b := rfl
    rw [h1, List.append_assoc]
    rfl
  have hne : natDigits a ++ '-' :: natDigits b ≠ [] := by simp
  have hsplit : splitOnChar ',' (natDigits a ++ '-' :: natDigits b) =
      [natDigits a ++ '-' :: natDigits b] := by
    apply splitOnChar_of_not_mem
    intro hm
    rcases List.mem_append.mp hm with hm | hm
    · exact comma_not_mem_natDigits hm
    · rcases List.mem_cons.mp hm with he | hm
      · exact absurd he (by decide)
      · exact comma_not_mem_natDigits hm
  unfold parseWorkerNumbers
  rw [parseWorkerNumbersWith_single_token hign htl hne hsplit, processToken_range]
  by_cases hab : Int.ofNat a > Int.ofNat b
  · rw [if_pos hab, if_pos hab]
  · rw [if_neg hab, if_neg hab, addRange_nil]
    have hsorted : List.Sorted (· ≤ ·)
        ((intRange (Int.ofNat a) (Int.ofNat b)).filter
          (fun x => decide (x ∉ ignSet))) :=
      intRange_sorted_le.filter _
    show (if (List.insertionSort (· ≤ ·)
        ((intRange (Int.ofNat a) (Int.ofNat b)).filter
          (fun x => decide (x ∉ ignSet)))).length = 0 then
        Except.error "no workers to send to after applying ignore list"
      else Except.ok (List.insertionSort (· ≤ ·)
        ((intRange (Int.ofNat a) (Int.ofNat b)).filter
          (fun x => decide (x ∉ ignSet))))) = _
    rw [insertionSort_eq_of_sorted hsorted]
    by_cases hfil : (intRange (Int.ofNat a) (Int.ofNat b)).filter
        (fun x => decide (x ∉ ignSet)) = []
    · rw [if_pos hfil, if_pos (by rw [hfil]; rfl)]
    · rw [if_neg hfil, if_neg (by simpa [List.length_eq_zero] using hfil)]

/-! ### Lemmas about the upload loop -/

theorem executePlan_spec (transfer : PlanItem → Except String Unit) :
    ∀ (rest : List PlanItem) (s : Nat) (errs : List String) (att : List PlanItem),
    executePlan transfer rest s errs att =
      (s + (rest.filter (transferOk transfer)).length,
       errs ++ (rest.filter (fun it => !transferOk transfer it)).map
         (fun it => uploadErrMsg it (transferErr transfer it)),
       att ++ rest) := by
  intro rest
  induction rest with
  | nil => intro s errs att; simp [executePlan]
  | cons it rest ih =>
    intro s errs att
    unfold executePlan
    rcases htr : transfer it with e | u
    · have hok : transferOk transfer it = false := by
        unfold transferOk; rw [htr]
      have herr : transferErr transfer it = e := by
        unfold transferErr; rw [htr]
      show executePlan transfer rest s (errs ++ [uploadErrMsg it e]) (att ++ [it]) = _
      rw [ih]
      simp [List.filter_cons, hok, herr, List.append_assoc]
    · have hok : transferOk transfer it = true := by
        unfold transferOk; rw [htr]
      show executePlan transfer rest (s + 1) errs (att ++ [it]) = _
      rw [ih]
      simp [List.filter_cons, hok, List.append_assoc]
      omega

/-! ### Lemmas about `resolveWorkerName` and the colon split -/

theorem replaceStar_eq_self {r : List Char} : ∀ {l : List Char},
    '*' ∉ l → replaceStar r l = l := by
  intro l
  induction l with
  | nil => intro _; rfl
  | cons c cs ih =>
    intro h
    have hc : ¬ c = '*' := fun he => h (he ▸ List.mem_cons_self c cs)
    unfold replaceStar
    rw [if_neg hc, ih (fun hm => h (List.mem_cons_of_mem c hm))]
    rfl

theorem replaceStar_append {r : List Char} : ∀ {x y : List Char},
    replaceStar r (x ++ y) = replaceStar r x ++ replaceStar r y := by
  intro x
  induction x with
  | nil => intro y; rfl
  | cons c cs ih =>
    intro y
    show (if c = '*' then r else [c]) ++ replaceStar r (cs ++ y) = _
    rw [ih, ← List.append_assoc]
    rfl

theorem replaceStar_star {r : List Char} : ∀ {x y : List Char}, '*' ∉ x →
    replaceStar r (x ++ '*' :: y) = x ++ r ++ replaceStar r y := by
  intro x y hx
  rw [replaceStar_append, replaceStar_eq_self hx]
  show x ++ ((if ('*' : Char) = '*' then r else ['*']) ++ replaceStar r y) = _
  rw [if_pos rfl, List.append_assoc]

theorem mem_replaceStar {r : List Char} : ∀ {l : List Char} {c : Char},
    c ∈ replaceStar r l → c ∈ r ∨ (c ∈ l ∧ c ≠ '*') := by
  intro l
  induction l with
  | nil => intro c hc; exact absurd hc (List.not_mem_nil c)
  | cons d ds ih =>
    intro c hc
    unfold replaceStar at hc
    rcases List.mem_append.mp hc with hc | hc
    · by_cases hd : d = '*'
      · rw [if_pos hd] at hc
        exact Or.inl hc
      · rw [if_neg hd] at hc
        have := List.mem_singleton.mp hc
        subst this
        exact Or.inr ⟨List.mem_cons_self c ds, hd⟩
    · rcases ih hc with h | ⟨hm, hne⟩
      · exact Or.inl h
      · exact Or.inr ⟨List.mem_cons_of_mem d hm, hne⟩

theorem intToString_chars {n : Int} :
    ∀ c ∈ (intToString n).toList, isDigitChar c = true ∨ c = '-' := by
  intro c hc
  unfold intToString at hc
  split at hc
  · have he : (("-" : String) ++ natToString (-n).toNat).toList =
        '-' :: natDigits (-n).toNat := rfl
    rw [he] at hc
    rcases List.mem_cons.mp hc with rfl | hc
    · exact Or.inr rfl
    · exact Or.inl (natDigits_all_digit c hc)
  · exact Or.inl (natDigits_all_digit c hc)

theorem workerName_chars {n : Int} :
    ∀ c ∈ ("worker" ++ intToString n).toList, c ≠ '*' ∧ c ≠ ':' := by
  intro c hc
  have he : ("worker" ++ intToString n).toList =
      ("worker" : String).toList ++ (intToString n).toList := rfl
  rw [he] at hc
  rcases List.mem_append.mp hc with hc | hc
  · refine ⟨?_, ?_⟩ <;> intro h <;> subst h <;> revert hc <;> decide
  · rcases intToString_chars c hc with hd | rfl
    · exact ⟨(digit_not_special hd).2.2.2.2.1, (digit_not_special hd).2.2.2.1⟩
    · exact ⟨by decide, by decide⟩

theorem star_not_mem_resolveWorkerName {n : Int} {t : String} :
    '*' ∉ (resolveWorkerName n t).toList := by
  intro hm
  unfold resolveWorkerName at hm
  have hm' : ('*' : Char) ∈ replaceStar ("worker" ++ intToString n).toList t.toList := hm
  rcases mem_replaceStar hm' with h | ⟨_, hne⟩
  · exact (workerName_chars _ h).1 rfl
  · exact hne rfl

theorem colon_not_mem_resolveWorkerName {n : Int} {t : String}
    (ht : ':' ∉ t.toList) : ':' ∉ (resolveWorkerName n t).toList := by
  intro hm
  unfold resolveWorkerName at hm
  have hm' : (':' : Char) ∈ replaceStar ("worker" ++ intToString n).toList t.toList := hm
  rcases mem_replaceStar hm' with h | ⟨hmem, _⟩
  · exact (workerName_chars _ h).2 rfl
  · exact ht hmem

theorem takeWhile_all_eq {p : Char → Bool} : ∀ {l : List Char},
    (∀ c ∈ l, p c = true) → l.takeWhile p = l := by
  intro l
  induction l with
  | nil => intro _; rfl
  | cons c cs ih =>
    intro h
    rw [List.takeWhile_cons_of_pos (h c (List.mem_cons_self c cs)),
      ih (fun d hd => h d (List.mem_cons_of_mem c hd))]

theorem dropWhile_all_eq {p : Char → Bool} : ∀ {l : List Char},
    (∀ c ∈ l, p c = true) → l.dropWhile p = [] := by
  intro l
  induction l with
  | nil => intro _; rfl
  | cons c cs ih =>
    intro h
    rw [List.dropWhile_cons_of_pos (h c (List.mem_cons_self c cs)),
      ih (fun d hd => h d (List.mem_cons_of_mem c hd))]

theorem takeWhile_until {p : Char → Bool} : ∀ {x : List Char} {c : Char}
    {y : List Char}, (∀ d ∈ x, p d = true) → p c = false →
    (x ++ c :: y).takeWhile p = x := by
  intro x
  induction x with
  | nil =>
    intro c y _ hc
    rw [List.nil_append, List.takeWhile_cons_of_neg (by simp [hc])]
  | cons d ds ih =>
    intro c y h hc
    rw [List.cons_append,
      List.takeWhile_cons_of_pos (h d (List.mem_cons_self d ds)),
      ih (fun z hz => h z (List.mem_cons_of_mem d hz)) hc]

theorem dropWhile_until {p : Char → Bool} : ∀ {x : List Char} {c : Char}
    {y : List Char}, (∀ d ∈ x, p d = true) → p c = false →
    (x ++ c :: y).dropWhile p = c :: y := by
  intro x
  induction x with
  | nil =>
    intro c y _ hc
    rw [List.nil_append, List.dropWhile_cons_of_neg (by simp [hc])]
  | cons d ds ih =>
    intro c y h hc
    rw [List.cons_append,
      List.dropWhile_cons_of_pos (h d (List.mem_cons_self d ds)),
      ih (fun z hz => h z (List.mem_cons_of_mem d hz)) hc]

theorem splitFirstColon_no_colon {s : String} (h : ':' ∉ s.toList) :
    splitFirstColon s = (s, none) := by
  unfold splitFirstColon
  rw [dropWhile_all_eq (fun c hc => by
    simp only [decide_eq_true_eq]
    exact fun he => h (he ▸ hc))]
  rw [takeWhile_all_eq (fun c hc => by
    simp only [decide_eq_true_eq]
    exact fun he => h (he ▸ hc))]
  rfl

theorem splitFirstColon_decomp {s : String} {x y : List Char}
    (hs : s.toList = x ++ ':' :: y) (hx : ':' ∉ x) :
    splitFirstColon s = (x.asString, some y.asString) := by
  unfold splitFirstColon
  rw [hs]
  rw [dropWhile_until (fun d hd => by
      simp only [decide_eq_true_eq]
      exact fun he => hx (he ▸ hd)) (by simp)]
  rw [takeWhile_until (fun d hd => by
      simp only [decide_eq_true_eq]
      exact fun he => hx (he ▸ hd)) (by simp)]

theorem exists_colon_decomp : ∀ {l : List Char}, ':' ∈ l →
    ∃ x y, l = x ++ ':' :: y ∧ ':' ∉ x := by
  intro l
  induction l with
  | nil => intro h; exact absurd h (List.not_mem_nil _)
  | cons c cs ih =>
    intro h
    by_cases hc : c = ':'
    · subst hc
      exact ⟨[], cs, rfl, List.not_mem_nil _⟩
    · rcases ih (by
        rcases List.mem_cons.mp h with he | hm
        · exact absurd he.symm hc
        · exact hm) with ⟨x, y, hl, hx⟩
      refine ⟨c :: x, y, by rw [hl]; rfl, ?_⟩
      intro hm
      rcases List.mem_cons.mp hm with he | hm
      · exact hc he.symm
      · exact hx hm

/-- The amended template equivalence: when the wildcard does not occur
after the first colon of the `--ip` string, the loop's split-expand-split
computes exactly the spec's expand-then-split pair. -/
theorem workerHostLoc_eq_specHostLoc {n : Int} {t : String}
    (h : ∀ r, (splitFirstColon t).2 = some r → '*' ∉ r.toList) :
    workerHostLoc n t = specHostLoc n t := by
  by_cases hc : ':' ∈ t.toList
  · rcases exists_colon_decomp hc with ⟨x, y, hl, hx⟩
    have hsp : splitFirstColon t = (x.asString, some y.asString) :=
      splitFirstColon_decomp hl hx
    have hy : '*' ∉ y := by
      have := h y.asString (by rw [hsp])
      simpa using this
    have hxs : ':' ∉ (x.asString).toList := by simpa using hx
    have hin : splitFirstColon (resolveWorkerName n x.asString) =
        (resolveWorkerName n x.asString, none) :=
      splitFirstColon_no_colon (colon_not_mem_resolveWorkerName hxs)
    have hexp : (resolveWorkerName n t).toList =
        replaceStar ("worker" ++ intToString n).toList x ++ ':' :: y := by
      show replaceStar ("worker" ++ intToString n).toList t.toList = _
      rw [hl, replaceStar_append]
      congr 1
      show (if (':' : Char) = '*' then _ else [':']) ++ _ = _
      rw [if_neg (by decide), replaceStar_eq_self hy]
      rfl
    have hrx : ':' ∉ replaceStar ("worker" ++ intToString n).toList x := by
      intro hm
      rcases mem_replaceStar hm with hm | ⟨hm, _⟩
      · exact (workerName_chars _ hm).2 rfl
      · exact hx hm
    have hout : splitFirstColon (resolveWorkerName n t) =
        ((replaceStar ("worker" ++ intToString n).toList x).asString,
          some y.asString) :=
      splitFirstColon_decomp hexp hrx
    unfold workerHostLoc specHostLoc
    rw [hsp, hout, hin]
    show ((resolveWorkerName n x.asString), some y.asString) = _
    have : resolveWorkerName n x.asString =
        (replaceStar ("worker" ++ intToString n).toList x).asString := rfl
    rw [this]
  · have hsp : splitFirstColon t = (t, none) := splitFirstColon_no_colon hc
    have hin : splitFirstColon (resolveWorkerName n t) =
        (resolveWorkerName n t, none) :=
      splitFirstColon_no_colon (colon_not_mem_resolveWorkerName hc)
    unfold workerHostLoc specHostLoc
    rw [hsp, hin]

theorem buildPlan_length {ip origDir : String} {workers : List Int}
    {files : List String} :
    (buildPlan ip origDir workers files).length =
      min workers.length files.length := by
  unfold buildPlan
  rw [List.length_map, List.length_zip]

theorem buildPlan_get {ip origDir : String} {workers : List Int}
    {files : List String} {j : Nat}
    (hw : j < workers.length) (hf : j < files.length)
    (hp : j < (buildPlan ip origDir workers files).length) :
    (buildPlan ip origDir workers files).get ⟨j, hp⟩ =
      planItemFor (splitFirstColon ip).1
        (match (splitFirstColon ip).2 with | some l => l | none => "") origDir
        (workers.get ⟨j, hw⟩) (files.get ⟨j, hf⟩) := by
  unfold buildPlan
  simp [List.get_eq_getElem, List.getElem_map, List.getElem_zip]

theorem planItemFor_hostLoc {ip origDir : String} {w : Int} {file : String} :
    (planItemFor (splitFirstColon ip).1
      (match (splitFirstColon ip).2 with | some l => l | none => "") origDir
      w file).host = (workerHostLoc w ip).1 ∧
    (planItemFor (splitFirstColon ip).1
      (match (splitFirstColon ip).2 with | some l => l | none => "") origDir
      w file).location = ((workerHostLoc w ip).2).getD "" := by
  unfold planItemFor workerHostLoc
  refine ⟨rfl, ?_⟩
  rcases hX : (splitFirstColon (resolveWorkerName w (splitFirstColon ip).1)).2
    with _ | l
  · rcases hY : (splitFirstColon ip).2 with _ | l2 <;> simp [hX, hY]
  · simp [hX]

theorem filter_length_partition {α : Type} (p : α → Bool) :
    ∀ l : List α, (l.filter p).length + (l.filter (fun x => !p x)).length = l.length := by
  intro l
  induction l with
  | nil => rfl
  | cons x xs ih =>
    rcases hx : p x with _ | _ <;> simp [List.filter_cons, hx, ← ih] <;> omega

/-! ### The claims -/

/-- C4: in every run of the upload loop, every plan item is attempted in
plan order regardless of which transfers fail; the final report counts
`succeeded = N - k` and `failed = k` where `k` is the number of failing
items, the failures are listed in plan order each carrying the item's
worker number and host identifier in its message, and the run is fatal
(non-zero exit via `log.Fatal`) exactly when `k ≠ 0`. -/
theorem c4_executor_report (transfer : PlanItem → Except String Unit)
    (plan : List PlanItem) :
    (runPlan transfer plan).2.2 = plan ∧
    (runPlan transfer plan).1 = (plan.filter (transferOk transfer)).length ∧
    (runPlan transfer plan).1 =
      plan.length - (plan.filter (fun it => !transferOk transfer it)).length ∧
    (runPlan transfer plan).2.1 =
      (plan.filter (fun it => !transferOk transfer it)).map
        (fun it => uploadErrMsg it (transferErr transfer it)) ∧
    (runPlan transfer plan).1 + (runPlan transfer plan).2.1.length = plan.length ∧
    (runFatal transfer plan = true ↔
      (plan.filter (fun it => !transferOk transfer it)).length ≠ 0) := by
  have hpart := filter_length_partition (transferOk transfer) plan
  have hrun : runPlan transfer plan =
      ((plan.filter (transferOk transfer)).length,
       (plan.filter (fun it => !transferOk transfer it)).map
         (fun it => uploadErrMsg it (transferErr transfer it)),
       plan) := by
    unfold runPlan
    rw [executePlan_spec transfer plan 0 [] []]
    simp
  unfold runFatal
  rw [hrun]
  refine ⟨rfl, rfl, by omega, rfl, ?_, ?_⟩
  · show (plan.filter (transferOk transfer)).length +
      ((plan.filter (fun it => !transferOk transfer it)).map
        (fun it => uploadErrMsg it (transferErr transfer it))).length = plan.length
    rw [List.length_map]
    omega
  · show (decide (((plan.filter (fun it => !transferOk transfer it)).map
      (fun it => uploadErrMsg it (transferErr transfer it))).length > 0)) = true ↔ _
    rw [List.length_map]
    simp only [decide_eq_true_eq, gt_iff_lt]
    omega

/-- C7 counterexample: with `--ip` string `a:*` and worker number 5 the
loop leaves the location part unexpanded (`*`), while expanding the whole
string first and then splitting on the first colon would produce location
`worker5`: the two orders disagree when the wildcard occurs after the
first colon. -/
theorem c7_split_order_counterexample :
    workerHostLoc 5 "a:*" ≠ specHostLoc 5 "a:*" ∧
    workerHostLoc 5 "a:*" = ("a", some "*") ∧
    specHostLoc 5 "a:*" = ("a", some "worker5") := by
  refine ⟨by decide, rfl, rfl⟩

/-- C7 (amended): for every worker number `n` and `--ip` template `t`
whose part after the first colon contains no wildcard, the (host
identifier, location override) pair used for the worker's plan item
equals the result of first expanding the wildcard in the whole of `t` and
then splitting the expansion on its first colon; and the plan items built
by the upload loop carry exactly the `workerHostLoc` pair (with Go's
empty-string default for an absent location). -/
theorem c7_host_location_split :
    (∀ (n : Int) (t : String),
      (∀ r, (splitFirstColon t).2 = some r → '*' ∉ r.toList) →
      workerHostLoc n t = specHostLoc n t) ∧
    (∀ (ip origDir : String) (workers : List Int) (files : List String)
      (j : Nat) (hw : j < workers.length) (hf : j < files.length)
      (hp : j < (buildPlan ip origDir workers files).length),
      ((buildPlan ip origDir workers files).get ⟨j, hp⟩).host =
        (workerHostLoc (workers.get ⟨j, hw⟩) ip).1 ∧
      ((buildPlan ip origDir workers files).get ⟨j, hp⟩).location =
        ((workerHostLoc (workers.get ⟨j, hw⟩) ip).2).getD "") := by
  constructor
  · exact fun n t h => workerHostLoc_eq_specHostLoc h
  · intro ip origDir workers files j hw hf hp
    rw [buildPlan_get hw hf hp]
    exact planItemFor_hostLoc

/-- C7 witness: the equivalence applied to template `*:/root/app` and
worker 23. -/
theorem c7_host_location_split_witness :
    workerHostLoc 23 "*:/root/app" = specHostLoc 23 "*:/root/app" :=
  c7_host_location_split.1 23 "*:/root/app" (by
    intro r hr
    injection (show some ("/root/app" : String) = some r from hr) with h
    rw [← h]
    decide)

/-- C8: `resolveWorkerName` is total, replaces every `*` in the template
with `worker{n}` in decimal without padding, returns star-free templates
unchanged, leaves no `*` in its output, and expands the spec's two
examples as stated. -/
theorem c8_wildcard_expansion :
    resolveWorkerName 23 "*:/root/app" = "worker23:/root/app" ∧
    resolveWorkerName 23 "192.168.1.1" = "192.168.1.1" ∧
    (∀ (n : Int) (t : String), '*' ∉ t.toList → resolveWorkerName n t = t) ∧
    (∀ (n : Int) (t : String), '*' ∉ (resolveWorkerName n t).toList) ∧
    (∀ (n : Int) (x y : List Char), '*' ∉ x →
      resolveWorkerName n (x ++ '*' :: y).asString =
        (x ++ ("worker" ++ intToString n).toList ++
          replaceStar ("worker" ++ intToString n).toList y).asString) := by
  refine ⟨rfl, rfl, ?_, ?_, ?_⟩
  · intro n t h
    show (replaceStar ("worker" ++ intToString n).toList t.toList).asString = t
    rw [replaceStar_eq_self h]
    rfl
  · intro n t
    exact star_not_mem_resolveWorkerName
  · intro n x y hx
    show (replaceStar ("worker" ++ intToString n).toList
      ((x ++ '*' :: y).asString).toList).asString = _
    have ht : ((x ++ '*' :: y).asString).toList = x ++ '*' :: y := rfl
    rw [ht, replaceStar_star hx]

/-- C8 witness: a star-free template is passed through unchanged. -/
theorem c8_wildcard_expansion_witness :
    resolveWorkerName 7 "10.0.0.1" = "10.0.0.1" :=
  c8_wildcard_expansion.2.2.1 7 "10.0.0.1" (by decide)

/-- C9: `parseWorkerNumbers` is deterministic — any iteration order of the
`map[int]bool` key set followed by a correct sort (`sort.Ints`) yields
the same result as the canonical run, so identical inputs always give
identical results; and `findFileSequence` depends only on its inputs and
the filesystem state, so two runs over pointwise-equal filesystems give
identical results. -/
theorem c9_determinism :
    (∀ (sortFn : List Int → List Int),
      (∀ l, List.Perm (sortFn l) l ∧ List.Sorted (· ≤ ·) (sortFn l)) →
      ∀ (autosend ignore : String),
        parseWorkerNumbersWith sortFn autosend ignore =
          parseWorkerNumbers autosend ignore) ∧
    (∀ (fs1 fs2 : String → Bool) (dir baseName : String) (count : Int),
      (∀ p, fs1 p = fs2 p) →
      findFileSequence fs1 dir baseName count =
        findFileSequence fs2 dir baseName count) := by
  constructor
  · exact fun sortFn hs a i => parseWorkerNumbersWith_eq hs a i
  · intro fs1 fs2 dir baseName count h
    have : fs1 = fs2 := funext h
    rw [this]

/-- C9 witness: the determinism statements applied to the spec's fixture. -/
theorem c9_determinism_witness :
    parseWorkerNumbersWith (List.insertionSort (· ≤ ·)) "21-27" "22,25" =
      parseWorkerNumbers "21-27" "22,25" ∧
    findFileSequence fs162 "/data" "worker162.txt" 5 =
      findFileSequence (fun p => fs162 p) "/data" "worker162.txt" 5 :=
  ⟨c9_determinism.1 _ (fun l =>
      ⟨List.perm_insertionSort _ l, List.sorted_insertionSort _ l⟩) "21-27" "22,25",
   c9_determinism.2 _ _ "/data" "worker162.txt" 5 (fun p => rfl)⟩

/-- Inversion of a successful parse: the returned worker list is the
insertion sort of a duplicate-free accumulator of non-negative numbers
that passed the non-empty check. -/
theorem parseWorkerNumbers_ok_inv {autosend ignore : String} {workers : List Int}
    (h : parseWorkerNumbers autosend ignore = .ok workers) :
    List.Sorted (· < ·) workers ∧ (∀ w ∈ workers, 0 ≤ w) ∧ workers ≠ [] := by
  unfold parseWorkerNumbers parseWorkerNumbersWith at h
  split at h
  · exact absurd h (by simp)
  · split at h
    · exact absurd h (by simp)
    · split at h
      · exact absurd h (by simp)
      · split at h
        · exact absurd h (by simp)
        · rename_i hempty xpi ignSet hpi xbw acc hbw hlen
          injection h with h
          subst h
          have hnodup : acc.Nodup := buildWorkerSet_nodup hbw List.nodup_nil
          have hperm := List.perm_insertionSort (· ≤ ·) acc
          refine ⟨?_, ?_, ?_⟩
          · exact sorted_lt_of_sorted_le_nodup
              (List.sorted_insertionSort _ acc) (hperm.nodup_iff.mpr hnodup)
          · intro w hw
            exact buildWorkerSet_nonneg hbw (by simp) w (hperm.subset hw)
          · intro hnil
            rw [hnil] at hlen
            exact hlen rfl

/-- C5: every successful `parseWorkerNumbers` result is a strictly
ascending (hence duplicate-free) list of non-negative worker numbers — a
number contributed by several tokens appears once — and the result is
never the empty list: when the accumulated set is empty after
ignore-subtraction the parser returns an error instead. -/
theorem c5_worker_list_invariants :
    (∀ (autosend ignore : String) (workers : List Int),
      parseWorkerNumbers autosend ignore = .ok workers →
      List.Sorted (· < ·) workers ∧ (∀ w ∈ workers, 0 ≤ w) ∧ workers ≠ []) ∧
    (∀ (autosend ignore : String) (ignSet : List Int),
      parseIgnoreList ignore.toList = .ok ignSet →
      buildWorkerSet ignSet (splitOnChar ',' autosend.toList) [] = .ok [] →
      ∃ e, parseWorkerNumbers autosend ignore = .error e) := by
  constructor
  · exact fun a i workers h => parseWorkerNumbers_ok_inv h
  · intro autosend ignore ignSet hpi hbw
    unfold parseWorkerNumbers parseWorkerNumbersWith
    by_cases h0 : autosend.toList = []
    · rw [if_pos h0]
      exact ⟨_, rfl⟩
    · rw [if_neg h0, hpi]
      show (∃ e, (match buildWorkerSet ignSet (splitOnChar ',' autosend.toList) [] with
        | Except.error e => Except.error e
        | Except.ok acc =>
          if (acc.insertionSort (· ≤ ·)).length = 0 then
            Except.error "no workers to send to after applying ignore list"
          else Except.ok (acc.insertionSort (· ≤ ·))) = Except.error e)
      rw [hbw]
      exact ⟨_, rfl⟩

/-- C5 witness: the invariants at the spec's range fixture. -/
theorem c5_worker_list_invariants_witness :
    (∀ w ∈ ([21, 23, 24, 26, 27] : List Int), 0 ≤ w) ∧
    ([21, 23, 24, 26, 27] : List Int) ≠ [] :=
  ⟨(c5_worker_list_invariants.1 "21-27" "22,25" [21, 23, 24, 26, 27] rfl).2.1,
   (c5_worker_list_invariants.1 "21-27" "22,25" [21, 23, 24, 26, 27] rfl).2.2⟩

/-- C1 counterexample: autosend `5-5` with ignore `5` is a well-formed
range with `a <= b` and a well-formed ignore specification whose ignore
set covers the whole range; the claim predicates the empty list, but
`parseWorkerNumbers` returns an error instead. -/
theorem c1_range_token_counterexample :
    parseIgnoreList ("5" : String).toList = .ok [5] ∧
    (intRange (Int.ofNat 5) (Int.ofNat 5)).filter
      (fun x => decide (x ∉ ([5] : List Int))) = [] ∧
    parseWorkerNumbers "5-5" "5" =
      .error "no workers to send to after applying ignore list" := by
  refine ⟨rfl, rfl, rfl⟩

/-- C1 (amended): for a range token `a-b` with `a <= b` and a well-formed
ignore specification, `parseWorkerNumbers` returns exactly the integers
of `[a, b]` not in the ignore set, sorted strictly ascending — provided
at least one integer remains; when none remains it returns an error
(rather than the empty list).  A range token whose start exceeds its end,
or one that does not split on `-` into exactly two integer-parsable
parts, makes it return an error. -/
theorem c1_range_token_resolution :
    (∀ (a b : Nat) (ignore : String) (ignSet : List Int),
      parseIgnoreList ignore.toList = .ok ignSet → a ≤ b →
      List.Sorted (· < ·) ((intRange (Int.ofNat a) (Int.ofNat b)).filter
        (fun x => decide (x ∉ ignSet))) ∧
      (∀ y, y ∈ (intRange (Int.ofNat a) (Int.ofNat b)).filter
        (fun x => decide (x ∉ ignSet)) ↔
        (Int.ofNat a ≤ y ∧ y ≤ Int.ofNat b ∧ y ∉ ignSet)) ∧
      ((intRange (Int.ofNat a) (Int.ofNat b)).filter
          (fun x => decide (x ∉ ignSet)) ≠ [] →
        parseWorkerNumbers (natToString a ++ "-" ++ natToString b) ignore =
          .ok ((intRange (Int.ofNat a) (Int.ofNat b)).filter
            (fun x => decide (x ∉ ignSet)))) ∧
      ((intRange (Int.ofNat a) (Int.ofNat b)).filter
          (fun x => decide (x ∉ ignSet)) = [] →
        ∃ e, parseWorkerNumbers (natToString a ++ "-" ++ natToString b) ignore =
          .error e)) ∧
    (∀ (a b : Nat) (ignore : String) (ignSet : List Int),
      parseIgnoreList ignore.toList = .ok ignSet → b < a →
      parseWorkerNumbers (natToString a ++ "-" ++ natToString b) ignore =
        .error ("range start (" ++ intToString (Int.ofNat a) ++
          ") must be <= end (" ++ intToString (Int.ofNat b) ++ ")")) ∧
    (∀ (tok : List Char) (ignore : String) (ignSet : List Int),
      parseIgnoreList ignore.toList = .ok ignSet →
      trimSpace tok = tok → tok ≠ [] → ',' ∉ tok → '-' ∈ tok →
      ((splitOnChar '-' tok).length ≠ 2 ∨
        ∃ p ∈ splitOnChar '-' tok, goAtoi (trimSpace p) = none) →
      ∃ e, parseWorkerNumbers tok.asString ignore = .error e) := by
  refine ⟨?_, ?_, ?_⟩
  · intro a b ignore ignSet hign hab
    have heval := parseWorkerNumbers_range a b ignore ignSet hign
    rw [if_neg (by simp only [Int.ofNat_eq_coe]; omega)] at heval
    refine ⟨List.Sorted.filter _ (List.Pairwise.imp (fun h => h) intRange_pairwise_lt),
      ?_, ?_, ?_⟩
    · intro y
      rw [List.mem_filter, mem_intRange]
      simp only [decide_eq_true_eq]
      tauto
    · intro hne
      rw [heval, if_neg hne]
    · intro hnil
      rw [heval, if_pos hnil]
      exact ⟨_, rfl⟩
  · intro a b ignore ignSet hign hba
    have heval := parseWorkerNumbers_range a b ignore ignSet hign
    rw [if_pos (by simp only [Int.ofNat_eq_coe]; omega)] at heval
    exact heval
  · intro tok ignore ignSet hign htrim hne hcomma hdash hbad
    rcases hres : parseWorkerNumbers tok.asString ignore with e | ws
    · exact ⟨e, rfl⟩
    · exfalso
      have hsplit : splitOnChar ',' tok = [tok] := splitOnChar_of_not_mem hcomma
      have htl : (tok.asString).toList = tok := rfl
      unfold parseWorkerNumbers at hres
      rw [parseWorkerNumbersWith_single_token hign htl (by simpa [htl] using hne)
        hsplit] at hres
      rcases hpt : processToken ignSet [] tok with e | acc
      · rw [hpt] at hres
        exact absurd hres (by simp)
      · rcases processToken_dash_ok_inv
          (show ('-' : Char) ∈ trimSpace tok by rw [htrim]; exact hdash) hpt with
          ⟨p1, p2, s, e, hsp, ha1, ha2, hse⟩
        rw [htrim] at hsp
        rcases hbad with hlen | ⟨p, hp, hpn⟩
        · rw [hsp] at hlen
          exact hlen rfl
        · rw [hsp] at hp
          rcases List.mem_cons.mp hp with rfl | hp
          · rw [hpn] at ha1
            exact absurd ha1 (by simp)
          · rcases List.mem_singleton.mp hp with rfl
            rw [hpn] at ha2
            exact absurd ha2 (by simp)

/-- C1 witness: the range fixture 21–27 with ignore 22,25. -/
theorem c1_range_token_resolution_witness :
    parseWorkerNumbers (natToString 21 ++ "-" ++ natToString 27) "22,25" =
      .ok ((intRange (Int.ofNat 21) (Int.ofNat 27)).filter
        (fun x => decide (x ∉ ([22, 25] : List Int)))) :=
  (c1_range_token_resolution.1 21 27 "22,25" [22, 25] rfl
    (by omega)).2.2.1 (by decide)

/-- C3: a successful `findFileSequence` returns the full ordered sequence
of exactly `count` paths and implies that every candidate path exists; on
the first missing candidate it fails immediately with an error naming
that candidate's path, returning no partial sequence. -/
theorem c3_sequence_all_or_nothing :
    (∀ (fs : String → Bool) (dir baseName : String) (count : Int)
      (files : List String),
      findFileSequence fs dir baseName count = .ok files →
      ∃ pre digits suf, firstDigitRun baseName.toList = some (pre, digits, suf) ∧
        files = (List.range count.toNat).map
          (fun k => joinPath dir (candidateName pre (digitsVal digits) suf k)) ∧
        files.length = count.toNat ∧
        (∀ k, k < count.toNat →
          fs (joinPath dir (candidateName pre (digitsVal digits) suf k)) = true)) ∧
    (∀ (fs : String → Bool) (dir baseName : String) (count : Int)
      (pre digits suf : List Char) (j : Nat),
      0 < count → fs (joinPath dir baseName) = true →
      firstDigitRun baseName.toList = some (pre, digits, suf) →
      j < count.toNat →
      (∀ k, k < j →
        fs (joinPath dir (candidateName pre (digitsVal digits) suf k)) = true) →
      fs (joinPath dir (candidateName pre (digitsVal digits) suf j)) = false →
      findFileSequence fs dir baseName count =
        .error ("file does not exist in sequence: " ++
          joinPath dir (candidateName pre (digitsVal digits) suf j))) := by
  constructor
  · intro fs dir baseName count files h
    rcases findFileSequence_ok_inv h with ⟨hc, hb, pre, digits, suf, hrun, hfiles, hall⟩
    exact ⟨pre, digits, suf, hrun, hfiles,
      by rw [hfiles, List.length_map, List.length_range], hall⟩
  · intro fs dir baseName count pre digits suf j h0 hb hrun hj hprev hmiss
    exact findFileSequence_error_of_first h0 hb hrun hj hprev hmiss

/-- C3 witness: the worker162 fixture with `worker164.txt` missing fails
naming exactly the index-2 candidate. -/
theorem c3_sequence_all_or_nothing_witness :
    findFileSequence fsGap "/data" "worker162.txt" 5 =
      .error ("file does not exist in sequence: " ++
        joinPath "/data" (candidateName ['w', 'o', 'r', 'k', 'e', 'r']
          (digitsVal ['1', '6', '2']) ['.', 't', 'x', 't'] 2)) :=
  c3_sequence_all_or_nothing.2 fsGap "/data" "worker162.txt" 5
    ['w', 'o', 'r', 'k', 'e', 'r'] ['1', '6', '2'] ['.', 't', 'x', 't'] 2
    (by decide) (by rfl) (by rfl) (by decide) (by decide) (by rfl)

/-- C10: whenever `findFileSequence` succeeds it returns exactly `count`
paths, so in autosend mode — where `count = len(workers)` — the
cardinality check comparing file count to worker count always passes:
whenever both resolvers succeed the pipeline builds the plan, never
taking the mismatch fatal branch. -/
theorem c10_cardinality_check :
    (∀ (fs : String → Bool) (dir baseName : String) (count : Int)
      (files : List String),
      findFileSequence fs dir baseName count = .ok files →
      files.length = count.toNat) ∧
    (∀ (fs : String → Bool) (dir baseName ip origDir autosend ignore : String)
      (workers : List Int) (files : List String),
      parseWorkerNumbers autosend ignore = .ok workers →
      findFileSequence fs dir baseName (workers.length : Int) = .ok files →
      autosendPlan fs dir baseName ip origDir autosend ignore =
        .ok (buildPlan ip origDir workers files)) := by
  constructor
  · exact fun fs dir b c files h => findFileSequence_ok_length h
  · intro fs dir baseName ip origDir autosend ignore workers files hpw hff
    have hlen : files.length = workers.length := by
      have := findFileSequence_ok_length hff
      omega
    unfold autosendPlan
    rw [hpw]
    show (match findFileSequence fs dir baseName (workers.length : Int) with
      | Except.error e => Except.error e
      | Except.ok files =>
        if files.length ≠ workers.length then Except.error mismatchMsg
        else Except.ok (buildPlan ip origDir workers files)) = _
    rw [hff]
    show (if files.length ≠ workers.length then Except.error mismatchMsg
      else Except.ok (buildPlan ip origDir workers files)) = _
    rw [if_neg (by omega)]

/-- C10 witness: the end-to-end fixture reaches plan construction. -/
theorem c10_cardinality_check_witness :
    autosendPlan fs162 "/data" "worker162.txt" "*:/root/react2shell-scanner" "."
      "21-27" "22,25" =
      .ok (buildPlan "*:/root/react2shell-scanner" "." [21, 23, 24, 26, 27]
        ["/data/worker162.txt", "/data/worker163.txt", "/data/worker164.txt",
         "/data/worker165.txt", "/data/worker166.txt"]) :=
  c10_cardinality_check.2 fs162 "/data" "worker162.txt"
    "*:/root/react2shell-scanner" "." "21-27" "22,25" [21, 23, 24, 26, 27]
    ["/data/worker162.txt", "/data/worker163.txt", "/data/worker164.txt",
     "/data/worker165.txt", "/data/worker166.txt"] rfl rfl

/-- C6: the numeric token is the first (leftmost) maximal run of decimal
digits of the filename — no digit means failure; candidate `i` is
`prefix ++ decimal(numericValue + i) ++ suffix` in the base directory,
with leading zeros not preserved: `worker007.txt` has numeric value 7 and
its sequence members render as `worker7.txt`, `worker8.txt`, … without
padding. -/
theorem c6_numeric_token_extraction :
    (∀ (l pre digits suf : List Char),
      firstDigitRun l = some (pre, digits, suf) →
      l = pre ++ digits ++ suf ∧ (∀ c ∈ pre, isDigitChar c = false) ∧
      digits ≠ [] ∧ (∀ c ∈ digits, isDigitChar c = true) ∧
      (∀ c, suf.head? = some c → isDigitChar c = false)) ∧
    (∀ (fs : String → Bool) (dir baseName : String) (count : Int),
      0 < count → fs (joinPath dir baseName) = true →
      (∀ c ∈ baseName.toList, isDigitChar c = false) →
      findFileSequence fs dir baseName count =
        .error ("could not extract number from filename: " ++ baseName)) ∧
    (∀ (fs : String → Bool) (dir baseName : String) (count : Int)
      (pre digits suf : List Char),
      0 < count → fs (joinPath dir baseName) = true →
      firstDigitRun baseName.toList = some (pre, digits, suf) →
      (∀ k, k < count.toNat → fs (joinPath dir (pre.asString ++
        natToString (digitsVal digits + k) ++ suf.asString)) = true) →
      findFileSequence fs dir baseName count = .ok ((List.range count.toNat).map
        (fun k => joinPath dir (pre.asString ++
          natToString (digitsVal digits + k) ++ suf.asString)))) ∧
    (firstDigitRun ("worker007.txt" : String).toList =
      some (['w', 'o', 'r', 'k', 'e', 'r'], ['0', '0', '7'], ['.', 't', 'x', 't']) ∧
     digitsVal ['0', '0', '7'] = 7 ∧
     findFileSequence fsPad "/d" "worker007.txt" 2 =
       .ok ["/d/worker7.txt", "/d/worker8.txt"]) := by
  refine ⟨?_, ?_, ?_, rfl, rfl, rfl⟩
  · exact fun l pre digits suf h => firstDigitRun_some_inv h
  · intro fs dir baseName count h0 hb hnd
    unfold findFileSequence
    rw [if_neg (by omega), if_neg (by simp [hb])]
    have hnone : firstDigitRun baseName.toList = none := firstDigitRunAux_none hnd
    rw [hnone]
  · intro fs dir baseName count pre digits suf h0 hb hrun hall
    exact findFileSequence_ok_of_all h0 hb hrun hall

/-- C6 witness: a filename without digits makes the locator fail. -/
theorem c6_numeric_token_extraction_witness :
    findFileSequence fsNoDig "/d" "nodigits.txt" 1 =
      .error ("could not extract number from filename: " ++ "nodigits.txt") :=
  c6_numeric_token_extraction.2.1 fsNoDig "/d" "nodigits.txt" 1 (by decide)
    (by rfl) (by decide)

/-- C2: on every successful autosend run the plan pairs the `i`-th
smallest resolved worker number (the worker list is strictly ascending)
with the file of numeric value `base + i`; in particular the end-to-end
fixture — autosend 21–27, ignore 22,25, base `worker162.txt`, template
`*:/root/react2shell-scanner` — maps worker21→worker162.txt,
worker23→worker163.txt, worker24→worker164.txt, worker26→worker165.txt,
worker27→worker166.txt, each with remote location
`/root/react2shell-scanner`. -/
theorem c2_plan_pairing :
    (autosendPlan fs162 "/data" "worker162.txt" "*:/root/react2shell-scanner" "."
      "21-27" "22,25" = .ok
      [⟨21, "worker21", "/root/react2shell-scanner", "/data/worker162.txt",
        "./worker162.txt"⟩,
       ⟨23, "worker23", "/root/react2shell-scanner", "/data/worker163.txt",
        "./worker163.txt"⟩,
       ⟨24, "worker24", "/root/react2shell-scanner", "/data/worker164.txt",
        "./worker164.txt"⟩,
       ⟨26, "worker26", "/root/react2shell-scanner", "/data/worker165.txt",
        "./worker165.txt"⟩,
       ⟨27, "worker27", "/root/react2shell-scanner", "/data/worker166.txt",
        "./worker166.txt"⟩]) ∧
    (∀ (fs : String → Bool) (dir baseName ip origDir autosend ignore : String)
      (workers : List Int) (files : List String) (j : Nat)
      (hw : j < workers.length) (hf : j < files.length)
      (hp : j < (buildPlan ip origDir workers files).length),
      parseWorkerNumbers autosend ignore = .ok workers →
      findFileSequence fs dir baseName (workers.length : Int) = .ok files →
      List.Sorted (· < ·) workers ∧
      ((buildPlan ip origDir workers files).get ⟨j, hp⟩).workerNum =
        workers.get ⟨j, hw⟩ ∧
      ((buildPlan ip origDir workers files).get ⟨j, hp⟩).file =
        files.get ⟨j, hf⟩ ∧
      ∃ pre digits suf, firstDigitRun baseName.toList = some (pre, digits, suf) ∧
        files.get ⟨j, hf⟩ =
          joinPath dir (candidateName pre (digitsVal digits) suf j)) := by
  constructor
  · rfl
  · intro fs dir baseName ip origDir autosend ignore workers files j hw hf hp hpw hff
    refine ⟨(parseWorkerNumbers_ok_inv hpw).1, ?_, ?_, ?_⟩
    · rw [buildPlan_get hw hf hp]
      rfl
    · rw [buildPlan_get hw hf hp]
      rfl
    · rcases findFileSequence_ok_inv hff with
        ⟨hc, hb, pre, digits, suf, hrun, hfiles, hall⟩
      refine ⟨pre, digits, suf, hrun, ?_⟩
      subst hfiles
      simp [List.get_eq_getElem, List.getElem_map, List.getElem_range]

/-- C2 witness: the general pairing applied to the fixture at index 0. -/
theorem c2_plan_pairing_witness :
    List.Sorted (· < ·) ([21, 23, 24, 26, 27] : List Int) :=
  (c2_plan_pairing.2 fs162 "/data" "worker162.txt" "*:/root/react2shell-scanner"
    "." "21-27" "22,25" [21, 23, 24, 26, 27]
    ["/data/worker162.txt", "/data/worker163.txt", "/data/worker164.txt",
     "/data/worker165.txt", "/data/worker166.txt"] 0 (by decide) (by decide)
    (by decide) rfl rfl).1
